import Mathlib

/-!
# Verification of the pyimorg retrying job-execution framework and workflows

This file gives a shallow embedding of the core of the `pyimorg` repository:

* `pyimorg/func.py` — the `map_with_retry` decorator and the wrapped mapper
  (`wrapped_mapper`), modelled as a deterministic round-based loop.  The
  thread-pool mapper `map_mt_with_tqdm` (pqdm with
  `exception_behaviour='immediate'`) is modelled by `mapExcept`: a sequential
  map that preserves input order and propagates the first raised error, which
  is the behaviour the library contracts guarantee for the result list.
* `pyimorg/filesystem.py` — `cksum`, `is_image`, and the retry loops of
  `mkdir_p_parallel` / `cp_p_parallel`.
* `pyimorg/cli/diff.py` (and the identical `pyimorg/pyimorg/diff.py`
  partitioning) — the hash-based set-difference planning.
* `pyimorg/cli/groupby.py` — the timestamp-based grouping.

Python exceptions are modelled with `Except`; an exception value is abstract
(`E`).  The classification `except on as exc` is modelled by a predicate
`isOn : E → Bool`.  A mapping function that may behave differently on
successive attempts is modelled as `fn : Nat → T → Except E R`, where the
first argument is the (1-based) round in which it is invoked; each non-`done`
item is re-dispatched in every round, so in round `c` item `t` is invoked as
`fn c t`.  The model additionally records a trace: the list of argument
batches handed to the underlying mapper, one entry per mapper invocation, so
that invocation counts are observable.
-/

namespace Pyimorg

/-- Job state of `func.py`: `_NewJob`, `_CompletedJob`, `_FailedJob`. -/
inductive Job (T R E : Type) where
  | new (arg : T)
  | done (result : R)
  | failed (arg : T) (exc : E)
  deriving DecidableEq

/-- `job.status == 'done'`. -/
def Job.isDone {T R E : Type} : Job T R E → Bool
  | .done _ => true
  | _ => false

/-- `job.status == 'failed'`. -/
def Job.isFailed {T R E : Type} : Job T R E → Bool
  | .failed _ _ => true
  | _ => false

/-- `job.status == 'new'`. -/
def Job.isNew {T R E : Type} : Job T R E → Bool
  | .new _ => true
  | _ => false

/-- The `.arg` attribute, present on new and failed jobs only. -/
def Job.argD {T R E : Type} : Job T R E → Option T
  | .new a => some a
  | .failed a _ => some a
  | .done _ => none

/-- The `.result` attribute, present on completed jobs only. -/
def Job.resD {T R E : Type} : Job T R E → Option R
  | .done r => some r
  | _ => none

/-- The `(arg, exc)` data of a failed job. -/
def Job.failD {T R E : Type} : Job T R E → Option (T × E)
  | .failed a e => some (a, e)
  | _ => none

/-- Sequential model of `pqdm` with `exception_behaviour='immediate'`:
the i-th result is `f` applied to the i-th input, and the first raised
error propagates. -/
def mapExcept {α β ε : Type} (f : α → Except ε β) : List α → Except ε (List β)
  | [] => .ok []
  | a :: as =>
    match f a with
    | .error e => .error e
    | .ok b =>
      match mapExcept f as with
      | .error e => .error e
      | .ok bs => .ok (b :: bs)

/-- `wrapped_fn` produced by `return_job` in `map_with_retry`: a completed
job on success, a failed job when the raised error is classified by `on`,
and a propagating error otherwise. -/
def return_job {T R E : Type} (isOn : E → Bool) (fn : T → Except E R) (val : T) :
    Except E (Job T R E) :=
  match fn val with
  | .ok r => .ok (.done r)
  | .error e => if isOn e then .ok (.failed val e) else .error e

/-- `inputs = [(i, job) for i, job in enumerate(jobs) if job.status != 'done']`. -/
def selectInputs {T R E : Type} (jobs : List (Job T R E)) : List (Nat × Job T R E) :=
  (List.enumFrom 0 jobs).filter (fun p => !p.2.isDone)

/-- `input_idxs = [e[0] for e in inputs]`. -/
def selectIdxs {T R E : Type} (jobs : List (Job T R E)) : List Nat :=
  (selectInputs jobs).map Prod.fst

/-- `input_args = [e[1].arg for e in inputs]`. -/
def dispatchArgs {T R E : Type} (jobs : List (Job T R E)) : List T :=
  (selectInputs jobs).filterMap (fun p => p.2.argD)

/-- `for i, job in zip(input_idxs, ...): jobs[i] = job`. -/
def writeBack {T R E : Type} (jobs : List (Job T R E))
    (updates : List (Nat × Job T R E)) : List (Job T R E) :=
  updates.foldl (fun js p => js.set p.1 p.2) jobs

/-- One round of `wrapped_mapper`: select the non-done jobs, dispatch their
arguments through the mapper applied to `wrapped_fn`, and write the returned
jobs back into their original index slots.  An unclassified error raised by
some call propagates. -/
def runRound {T R E : Type} (isOn : E → Bool) (f : T → Except E R)
    (jobs : List (Job T R E)) : Except E (List (Job T R E)) :=
  match mapExcept (return_job isOn f) (dispatchArgs jobs) with
  | .error e => .error e
  | .ok outs => .ok (writeBack jobs ((selectIdxs jobs).zip outs))

/-- Outcome of a call to the wrapped mapper. -/
inductive MapOutcome (T R E : Type) where
  /-- The results list returned on success. -/
  | success (results : List R)
  /-- The `JobsFailed` exception with its `(arg, exc)` entries. -/
  | jobsFailed (failed : List (T × E))
  /-- An unclassified error propagating out of the mapper. -/
  | raised (e : E)
  /-- The `assert len(results) == len(arr)` failing. -/
  | assertFailed
  deriving DecidableEq

/-- The `for c in range(1, count + 1)` loop of `wrapped_mapper`, with
`remaining` rounds still to run and `c` the current (1-based) round number.
When all rounds are exhausted, the `for ... else` branch raises `JobsFailed`
with the still-failed jobs.  The second component is the trace of argument
batches handed to the underlying mapper, one per mapper invocation. -/
def wrappedMapperLoop {T R E : Type} (isOn : E → Bool) (fn : Nat → T → Except E R)
    (arrLen : Nat) : Nat → Nat → List (Job T R E) → List (List T) →
    MapOutcome T R E × List (List T)
  | _, 0, jobs, trace => (.jobsFailed (jobs.filterMap Job.failD), trace)
  | c, remaining + 1, jobs, trace =>
    match runRound isOn (fn c) jobs with
    | .error e => (.raised e, trace ++ [dispatchArgs jobs])
    | .ok jobs1 =>
      if jobs1.any Job.isFailed then
        wrappedMapperLoop isOn fn arrLen (c + 1) remaining jobs1
          (trace ++ [dispatchArgs jobs])
      else
        if (jobs1.filterMap Job.resD).length = arrLen then
          (.success (jobs1.filterMap Job.resD), trace ++ [dispatchArgs jobs])
        else
          (.assertFailed, trace ++ [dispatchArgs jobs])

/-- The wrapped mapper produced by `map_with_retry(on, count=count)` applied
to the (order-preserving, immediately-propagating) pool mapper, started on
the batch `arr`.  `fn c t` is the behaviour of the mapping function on item
`t` when invoked in round `c`. -/
def wrapped_mapper {T R E : Type} (isOn : E → Bool) (count : Nat)
    (fn : Nat → T → Except E R) (arr : List T) : MapOutcome T R E × List (List T) :=
  wrappedMapperLoop isOn fn arr.length 1 count (arr.map Job.new) []

/-- Reference per-job step: completed jobs are untouched, other jobs are
re-invoked through `wrapped_fn`. -/
def stepJob {T R E : Type} (isOn : E → Bool) (f : T → Except E R) :
    Job T R E → Except E (Job T R E)
  | .done r => .ok (.done r)
  | .new a => return_job isOn f a
  | .failed a _ => return_job isOn f a

theorem enumFrom_succ_eq_map {α : Type} (l : List α) (n : Nat) :
    List.enumFrom (n + 1) l = (List.enumFrom n l).map (fun p => (p.1 + 1, p.2)) := by
  induction l generalizing n with
  | nil => rfl
  | cons a t ih =>
    rw [List.enumFrom_cons, List.enumFrom_cons, List.map_cons, ih (n + 1)]

theorem writeBack_nil {T R E : Type} (jobs : List (Job T R E)) :
    writeBack jobs [] = jobs := rfl

theorem writeBack_cons {T R E : Type} (jobs : List (Job T R E))
    (u : Nat × Job T R E) (us : List (Nat × Job T R E)) :
    writeBack jobs (u :: us) = writeBack (jobs.set u.1 u.2) us := rfl

theorem writeBack_shift {T R E : Type} (j : Job T R E) (rest : List (Job T R E))
    (updates : List (Nat × Job T R E)) :
    writeBack (j :: rest) (updates.map (fun p => (p.1 + 1, p.2))) =
      j :: writeBack rest updates := by
  induction updates generalizing rest with
  | nil => rfl
  | cons u us ih =>
    rw [List.map_cons, writeBack_cons, writeBack_cons]
    show writeBack ((j :: rest).set (u.1 + 1) u.2) _ = _
    rw [List.set_cons_succ]
    exact ih (rest.set u.1 u.2)

theorem selectInputs_cons {T R E : Type} (j : Job T R E) (rest : List (Job T R E)) :
    selectInputs (j :: rest) =
      (if j.isDone then [] else [(0, j)]) ++
        (selectInputs rest).map (fun p => (p.1 + 1, p.2)) := by
  unfold selectInputs
  rw [List.enumFrom_cons, enumFrom_succ_eq_map, List.filter_cons]
  have hpred : ((fun p : Nat × Job T R E => !p.2.isDone) ∘ fun p => (p.1 + 1, p.2)) =
      (fun p : Nat × Job T R E => !p.2.isDone) := rfl
  rw [List.filter_map, hpred]
  cases hd : j.isDone <;> simp

theorem dispatchArgs_cons {T R E : Type} (j : Job T R E) (rest : List (Job T R E)) :
    dispatchArgs (j :: rest) =
      (if j.isDone then [] else j.argD.toList) ++ dispatchArgs rest := by
  unfold dispatchArgs
  rw [selectInputs_cons, List.filterMap_append, List.filterMap_map]
  have hfn : ((fun p : Nat × Job T R E => p.2.argD) ∘ fun p => (p.1 + 1, p.2)) =
      (fun p : Nat × Job T R E => p.2.argD) := rfl
  rw [hfn]
  cases hd : j.isDone with
  | true => simp
  | false => cases j <;> simp_all [Job.argD, Job.isDone]

theorem selectIdxs_cons {T R E : Type} (j : Job T R E) (rest : List (Job T R E)) :
    selectIdxs (j :: rest) =
      (if j.isDone then [] else [0]) ++ (selectIdxs rest).map (fun i => i + 1) := by
  unfold selectIdxs
  rw [selectInputs_cons, List.map_append, List.map_map]
  cases hd : j.isDone <;> simp

theorem mapExcept_cons {α β ε : Type} (f : α → Except ε β) (a : α) (l : List α) :
    mapExcept f (a :: l) =
      match f a with
      | .error e => .error e
      | .ok b =>
        match mapExcept f l with
        | .error e => .error e
        | .ok bs => .ok (b :: bs) := rfl

theorem zip_map_succ {T R E : Type} (idxs : List Nat) (outs : List (Job T R E)) :
    (idxs.map (fun i => i + 1)).zip outs =
      (idxs.zip outs).map (fun p => (p.1 + 1, p.2)) := by
  rw [List.zip_map_left]
  apply List.map_congr_left
  intro p _
  cases p
  rfl

theorem runRound_cons_done {T R E : Type} (isOn : E → Bool) (f : T → Except E R)
    (r : R) (rest : List (Job T R E)) :
    runRound isOn f (Job.done r :: rest) =
      match runRound isOn f rest with
      | .error e => .error e
      | .ok tl => .ok (Job.done r :: tl) := by
  unfold runRound
  rw [dispatchArgs_cons, selectIdxs_cons]
  simp only [Job.isDone, if_pos, List.nil_append]
  cases hm : mapExcept (return_job isOn f) (dispatchArgs rest) with
  | error e => rfl
  | ok outs =>
    dsimp only
    rw [zip_map_succ, writeBack_shift]

theorem runRound_cons_nondone {T R E : Type} (isOn : E → Bool) (f : T → Except E R)
    (j : Job T R E) (a : T) (rest : List (Job T R E))
    (hd : j.isDone = false) (ha : j.argD = some a) :
    runRound isOn f (j :: rest) =
      match return_job isOn f a with
      | .error e => .error e
      | .ok out0 =>
        match runRound isOn f rest with
        | .error e => .error e
        | .ok tl => .ok (out0 :: tl) := by
  unfold runRound
  rw [dispatchArgs_cons, selectIdxs_cons, hd]
  simp only [Bool.false_eq_true, if_neg, ha, Option.toList_some, List.singleton_append,
    not_false_eq_true]
  rw [mapExcept_cons]
  cases h0 : return_job isOn f a with
  | error e => rfl
  | ok out0 =>
    cases hm : mapExcept (return_job isOn f) (dispatchArgs rest) with
    | error e => rfl
    | ok outs =>
      dsimp only
      rw [List.zip_cons_cons, writeBack_cons]
      show Except.ok (writeBack ((j :: rest).set 0 out0) _) = _
      rw [List.set_cons_zero, zip_map_succ, writeBack_shift]

/-- The indexed select/dispatch/write-back round of `wrapped_mapper` is
exactly a pointwise traversal of the jobs list: completed jobs are kept, the
others are re-invoked, and the first unclassified error propagates. -/
theorem runRound_eq_mapExcept {T R E : Type} (isOn : E → Bool) (f : T → Except E R) :
    ∀ jobs : List (Job T R E), runRound isOn f jobs = mapExcept (stepJob isOn f) jobs := by
  intro jobs
  induction jobs with
  | nil => rfl
  | cons j rest ih =>
    cases j with
    | done r =>
      rw [runRound_cons_done, mapExcept_cons, ih]
      dsimp only [stepJob]
      cases mapExcept (stepJob isOn f) rest <;> rfl
    | new a =>
      rw [runRound_cons_nondone isOn f (Job.new a) a rest rfl rfl, mapExcept_cons, ih]
      dsimp only [stepJob]
      cases return_job isOn f a <;> cases mapExcept (stepJob isOn f) rest <;> rfl
    | failed a exc =>
      rw [runRound_cons_nondone isOn f (Job.failed a exc) a rest rfl rfl, mapExcept_cons, ih]
      dsimp only [stepJob]
      cases return_job isOn f a <;> cases mapExcept (stepJob isOn f) rest <;> rfl

theorem mapExcept_ok_length {α β ε : Type} (f : α → Except ε β) :
    ∀ (l : List α) (l2 : List β), mapExcept f l = .ok l2 → l2.length = l.length := by
  intro l
  induction l with
  | nil =>
    intro l2 h
    simp only [mapExcept] at h
    cases h
    rfl
  | cons a as ih =>
    intro l2 h
    rw [mapExcept_cons] at h
    cases hfa : f a with
    | error e => rw [hfa] at h; cases h
    | ok b =>
      rw [hfa] at h
      cases hm : mapExcept f as with
      | error e => rw [hm] at h; cases h
      | ok bs =>
        rw [hm] at h
        cases h
        simp [ih bs hm]

theorem mapExcept_ok_get {α β ε : Type} (f : α → Except ε β) :
    ∀ (l : List α) (l2 : List β), mapExcept f l = .ok l2 →
      ∀ (i : Nat) (a : α), l.get? i = some a →
        ∃ b, l2.get? i = some b ∧ f a = .ok b := by
  intro l
  induction l with
  | nil =>
    intro l2 _ i a ha
    simp at ha
  | cons x as ih =>
    intro l2 h i a ha
    rw [mapExcept_cons] at h
    cases hfa : f x with
    | error e => rw [hfa] at h; cases h
    | ok b =>
      rw [hfa] at h
      cases hm : mapExcept f as with
      | error e => rw [hm] at h; cases h
      | ok bs =>
        rw [hm] at h
        cases h
        cases i with
        | zero =>
          cases ha
          exact ⟨b, rfl, hfa⟩
        | succ j =>
          exact ih bs hm j a ha

theorem mapExcept_error_at {α β ε : Type} (f : α → Except ε β) :
    ∀ (l : List α) (i : Nat) (a : α) (e : ε),
      l.get? i = some a → f a = .error e →
      (∀ (j : Nat) (b : α), j < i → l.get? j = some b → ∃ v, f b = .ok v) →
      mapExcept f l = .error e := by
  intro l
  induction l with
  | nil =>
    intro i a e ha _ _
    simp at ha
  | cons x as ih =>
    intro i a e ha hfa hbefore
    rw [mapExcept_cons]
    cases i with
    | zero =>
      cases ha
      rw [hfa]
    | succ j =>
      obtain ⟨v, hv⟩ := hbefore 0 x (Nat.succ_pos j) rfl
      have hrec := ih j a e ha hfa (fun k b hk hkb =>
        hbefore (k + 1) b (Nat.succ_lt_succ hk) hkb)
      rw [hv, hrec]

/-- `fn`, invoked at round `k`, raises an error classified by `on`. -/
def failsClassified {R E : Type} (isOn : E → Bool) (res : Except E R) : Prop :=
  ∃ e, res = .error e ∧ isOn e = true

/-- Invariant tying the job stored at an index, at the start of round `c`,
to the behaviour of `fn` on the item `a` originally at that index. -/
def JobInv {T R E : Type} (isOn : E → Bool) (fn : Nat → T → Except E R) (a : T)
    (c : Nat) : Job T R E → Prop
  | .new a1 => a1 = a ∧ c = 1
  | .done v => ∃ c1, 1 ≤ c1 ∧ c1 < c ∧ fn c1 a = .ok v ∧
      ∀ k, 1 ≤ k → k < c1 → failsClassified isOn (fn k a)
  | .failed a1 _ => a1 = a ∧ ∀ k, 1 ≤ k → k < c → failsClassified isOn (fn k a)

theorem stepJob_inv {T R E : Type} (isOn : E → Bool) (fn : Nat → T → Except E R)
    (a : T) (c : Nat) (hc : 1 ≤ c) (j j1 : Job T R E)
    (hinv : JobInv isOn fn a c j) (hstep : stepJob isOn (fn c) j = .ok j1) :
    JobInv isOn fn a (c + 1) j1 := by
  cases j with
  | done v =>
    cases hstep
    obtain ⟨c1, h1, h2, h3, h4⟩ := hinv
    exact ⟨c1, h1, Nat.lt_succ_of_lt h2, h3, h4⟩
  | new a1 =>
    obtain ⟨rfl, rfl⟩ := hinv
    cases hfa : fn 1 a1 with
    | ok v =>
      simp only [stepJob, return_job, hfa] at hstep
      cases hstep
      exact ⟨1, Nat.le_refl 1, Nat.lt_succ_self 1, hfa, fun k hk1 hk2 => absurd hk2 (by omega)⟩
    | error e =>
      by_cases hon : isOn e = true
      · simp only [stepJob, return_job, hfa, hon, if_pos] at hstep
        cases hstep
        refine ⟨rfl, fun k hk1 hk2 => ?_⟩
        have : k = 1 := by omega
        exact this ▸ ⟨e, hfa, hon⟩
      · simp only [stepJob, return_job, hfa, hon, if_false, Bool.false_eq_true, if_neg] at hstep
        cases hstep
  | failed a1 e0 =>
    obtain ⟨rfl, hall⟩ := hinv
    cases hfa : fn c a1 with
    | ok v =>
      simp only [stepJob, return_job, hfa] at hstep
      cases hstep
      exact ⟨c, hc, Nat.lt_succ_self c, hfa, hall⟩
    | error e =>
      by_cases hon : isOn e = true
      · simp only [stepJob, return_job, hfa, hon, if_pos] at hstep
        cases hstep
        refine ⟨rfl, fun k hk1 hk2 => ?_⟩
        rcases Nat.lt_or_ge k c with hkc | hkc
        · exact hall k hk1 hkc
        · have : k = c := by omega
          exact this ▸ ⟨e, hfa, hon⟩
      · simp only [stepJob, return_job, hfa, hon, if_false, Bool.false_eq_true, if_neg] at hstep
        cases hstep

theorem stepJob_not_new {T R E : Type} (isOn : E → Bool) (f : T → Except E R)
    (j j1 : Job T R E) (hstep : stepJob isOn f j = .ok j1) : j1.isNew = false := by
  cases j with
  | done r => cases hstep; rfl
  | new a =>
    cases hfa : f a with
    | ok v => simp only [stepJob, return_job, hfa] at hstep; cases hstep; rfl
    | error e =>
      by_cases hon : isOn e = true
      · simp only [stepJob, return_job, hfa, hon, if_pos] at hstep; cases hstep; rfl
      · simp only [stepJob, return_job, hfa, hon, Bool.false_eq_true, if_neg,
          not_false_eq_true] at hstep
        cases hstep
  | failed a e0 =>
    cases hfa : f a with
    | ok v => simp only [stepJob, return_job, hfa] at hstep; cases hstep; rfl
    | error e =>
      by_cases hon : isOn e = true
      · simp only [stepJob, return_job, hfa, hon, if_pos] at hstep; cases hstep; rfl
      · simp only [stepJob, return_job, hfa, hon, Bool.false_eq_true, if_neg,
          not_false_eq_true] at hstep
        cases hstep

theorem filterMap_resD_all_done {T R E : Type} :
    ∀ jobs : List (Job T R E), (∀ j ∈ jobs, j.isDone = true) →
      (jobs.filterMap Job.resD).length = jobs.length ∧
      ∀ (i : Nat) (r : R), jobs.get? i = some (.done r) →
        (jobs.filterMap Job.resD).get? i = some r := by
  intro jobs
  induction jobs with
  | nil => exact fun _ => ⟨rfl, fun i r h => by simp at h⟩
  | cons j rest ih =>
    intro hall
    have hj : j.isDone = true := hall j (List.mem_cons_self j rest)
    cases j with
    | new a => simp [Job.isDone] at hj
    | failed a e => simp [Job.isDone] at hj
    | done r0 =>
      have hrest := ih (fun x hx => hall x (List.mem_cons_of_mem _ hx))
      constructor
      · simpa [List.filterMap_cons, Job.resD] using hrest.1
      · intro i r h
        cases i with
        | zero =>
          simp only [List.get?] at h
          cases h
          simp [List.filterMap_cons, Job.resD]
        | succ k =>
          simp only [List.get?] at h
          simpa [List.filterMap_cons, Job.resD] using hrest.2 k r h

theorem wrappedMapperLoop_zero {T R E : Type} (isOn : E → Bool)
    (fn : Nat → T → Except E R) (arrLen c : Nat) (jobs : List (Job T R E))
    (trace : List (List T)) :
    wrappedMapperLoop isOn fn arrLen c 0 jobs trace =
      (.jobsFailed (jobs.filterMap Job.failD), trace) := rfl

theorem wrappedMapperLoop_succ {T R E : Type} (isOn : E → Bool)
    (fn : Nat → T → Except E R) (arrLen c remaining : Nat) (jobs : List (Job T R E))
    (trace : List (List T)) :
    wrappedMapperLoop isOn fn arrLen c (remaining + 1) jobs trace =
      match runRound isOn (fn c) jobs with
      | .error e => (.raised e, trace ++ [dispatchArgs jobs])
      | .ok jobs1 =>
        if jobs1.any Job.isFailed then
          wrappedMapperLoop isOn fn arrLen (c + 1) remaining jobs1
            (trace ++ [dispatchArgs jobs])
        else
          if (jobs1.filterMap Job.resD).length = arrLen then
            (.success (jobs1.filterMap Job.resD), trace ++ [dispatchArgs jobs])
          else
            (.assertFailed, trace ++ [dispatchArgs jobs]) := rfl

theorem wrappedMapperLoop_success {T R E : Type} (isOn : E → Bool)
    (fn : Nat → T → Except E R) (arr : List T) :
    ∀ (remaining c : Nat) (jobs : List (Job T R E)) (trace trace1 : List (List T))
      (results : List R),
      1 ≤ c →
      jobs.length = arr.length →
      (∀ (i : Nat) (a : T) (j : Job T R E),
        arr.get? i = some a → jobs.get? i = some j → JobInv isOn fn a c j) →
      wrappedMapperLoop isOn fn arr.length c remaining jobs trace =
        (.success results, trace1) →
      results.length = arr.length ∧
      ∀ (i : Nat) (a : T), arr.get? i = some a →
        ∃ v c1, results.get? i = some v ∧ 1 ≤ c1 ∧ c1 < c + remaining ∧
          fn c1 a = .ok v ∧ ∀ k, 1 ≤ k → k < c1 → failsClassified isOn (fn k a) := by
  intro remaining
  induction remaining with
  | zero =>
    intro c jobs trace trace1 results _ _ _ h
    rw [wrappedMapperLoop_zero] at h
    cases h
  | succ rem ih =>
    intro c jobs trace trace1 results hc hlen hinv h
    rw [wrappedMapperLoop_succ] at h
    cases hr : runRound isOn (fn c) jobs with
    | error e =>
      rw [hr] at h
      cases h
    | ok jobs1 =>
      rw [hr] at h
      dsimp only at h
      have hm : mapExcept (stepJob isOn (fn c)) jobs = .ok jobs1 := by
        rw [← runRound_eq_mapExcept]
        exact hr
      have hlen1 : jobs1.length = jobs.length := mapExcept_ok_length _ jobs jobs1 hm
      have hinv1 : ∀ (i : Nat) (a : T) (j1 : Job T R E),
          arr.get? i = some a → jobs1.get? i = some j1 → JobInv isOn fn a (c + 1) j1 := by
        intro i a j1 ha hj1
        have hilt : i < jobs.length := by
          obtain ⟨hlt, -⟩ := List.get?_eq_some.mp hj1
          omega
        have hj : jobs.get? i = some (jobs.get ⟨i, hilt⟩) := List.get?_eq_get hilt
        obtain ⟨j1x, hj1x, hstep⟩ := mapExcept_ok_get _ jobs jobs1 hm i _ hj
        rw [hj1] at hj1x
        cases hj1x
        exact stepJob_inv isOn fn _ c hc _ _ (hinv i a _ ha hj) hstep
      by_cases hany : jobs1.any Job.isFailed = true
      · rw [if_pos hany] at h
        have hres := ih (c + 1) jobs1 (trace ++ [dispatchArgs jobs]) trace1 results
          (by omega) (by rw [hlen1, hlen]) hinv1 h
        refine ⟨hres.1, fun i a ha => ?_⟩
        obtain ⟨v, c1, h1, h2, h3, h4, h5⟩ := hres.2 i a ha
        exact ⟨v, c1, h1, h2, by omega, h4, h5⟩
      · rw [if_neg hany] at h
        have hnofail : ∀ j ∈ jobs1, j.isFailed = false := by
          intro j hjm
          by_contra hne
          exact hany (List.any_eq_true.mpr ⟨j, hjm, by simpa using hne⟩)
        have halldone : ∀ j ∈ jobs1, j.isDone = true := by
          intro j hjm
          obtain ⟨i, hi⟩ := List.mem_iff_get?.mp hjm
          have hilt : i < jobs.length := by
            obtain ⟨hlt, -⟩ := List.get?_eq_some.mp hi
            omega
          have hj : jobs.get? i = some (jobs.get ⟨i, hilt⟩) := List.get?_eq_get hilt
          obtain ⟨j1x, hj1x, hstep⟩ := mapExcept_ok_get _ jobs jobs1 hm i _ hj
          rw [hi] at hj1x
          cases hj1x
          have hnew := stepJob_not_new isOn (fn c) _ _ hstep
          cases j with
          | done r => rfl
          | new a2 => simp [Job.isNew] at hnew
          | failed a2 e2 => simpa [Job.isFailed] using hnofail _ hjm
        have hfm := filterMap_resD_all_done jobs1 halldone
        have hreslen : (jobs1.filterMap Job.resD).length = arr.length := by
          rw [hfm.1, hlen1, hlen]
        rw [if_pos hreslen] at h
        cases h
        refine ⟨hreslen, fun i a ha => ?_⟩
        have hia : i < arr.length := by
          obtain ⟨hlt, -⟩ := List.get?_eq_some.mp ha
          exact hlt
        have hi1 : i < jobs1.length := by omega
        have hj1 : jobs1.get? i = some (jobs1.get ⟨i, hi1⟩) := List.get?_eq_get hi1
        have hinvi := hinv1 i a _ ha hj1
        have hdone := halldone _ (List.get?_mem hj1)
        cases hjv : jobs1.get ⟨i, hi1⟩ with
        | new a2 => rw [hjv] at hdone; simp [Job.isDone] at hdone
        | failed a2 e2 => rw [hjv] at hdone; simp [Job.isDone] at hdone
        | done v =>
          rw [hjv] at hinvi hj1
          obtain ⟨c1, hc1, hc2, hc3, hc4⟩ := hinvi
          exact ⟨v, c1, hfm.2 i v hj1, hc1, by omega, hc3, hc4⟩

/-- C1: For every item collection, mapping behaviour, retry count and
(modelled) worker pool, a successful call to the `map_with_retry`-wrapped
mapper returns a result sequence positionally aligned with the input: the
i-th result is the value `fn` eventually returned for the i-th input item
(at its first succeeding round, all earlier rounds having raised classified
errors), regardless of which items failed and were retried earlier. -/
theorem wrapped_mapper_success_aligned {T R E : Type} (isOn : E → Bool) (count : Nat)
    (fn : Nat → T → Except E R) (arr : List T) (results : List R)
    (trace : List (List T))
    (h : wrapped_mapper isOn count fn arr = (.success results, trace)) :
    results.length = arr.length ∧
    ∀ (i : Nat) (a : T), arr.get? i = some a →
      ∃ v c, results.get? i = some v ∧ 1 ≤ c ∧ c ≤ count ∧ fn c a = .ok v ∧
        ∀ k, 1 ≤ k → k < c → failsClassified isOn (fn k a) := by
  have hinv0 : ∀ (i : Nat) (a : T) (j : Job T R E),
      arr.get? i = some a → (arr.map Job.new).get? i = some j → JobInv isOn fn a 1 j := by
    intro i a j ha hj
    rw [List.get?_map, ha] at hj
    cases hj
    exact ⟨rfl, rfl⟩
  have hmain := wrappedMapperLoop_success isOn fn arr count 1 (arr.map Job.new) [] trace
    results (Nat.le_refl 1) (by simp) hinv0 h
  refine ⟨hmain.1, fun i a ha => ?_⟩
  obtain ⟨v, c1, h1, h2, h3, h4, h5⟩ := hmain.2 i a ha
  exact ⟨v, c1, h1, h2, by omega, h4, h5⟩

/-- Witness for C1: a concrete two-item batch where the second item fails
its first attempt with a classified error and succeeds on the retry; the
result list is aligned with the input. -/
theorem wrapped_mapper_success_aligned_witness :
    wrapped_mapper (fun _ : Unit => true) 2
        (fun c t => if t = 20 ∧ c = 1 then Except.error () else Except.ok (t + c))
        [10, 20] = (MapOutcome.success [11, 22], [[10, 20], [20]]) ∧
      (([11, 22] : List Nat).length = ([10, 20] : List Nat).length ∧
        ∀ (i : Nat) (a : Nat), ([10, 20] : List Nat).get? i = some a →
          ∃ v c, ([11, 22] : List Nat).get? i = some v ∧ 1 ≤ c ∧ c ≤ 2 ∧
            (fun c t => if t = 20 ∧ c = 1 then Except.error () else Except.ok (t + c)) c a =
              Except.ok v ∧
            ∀ k, 1 ≤ k → k < c → failsClassified (fun _ : Unit => true)
              ((fun c t => if t = 20 ∧ c = 1 then Except.error () else Except.ok (t + c)) k a)) :=
  ⟨by decide,
    wrapped_mapper_success_aligned (fun _ : Unit => true) 2
      (fun c t => if t = 20 ∧ c = 1 then Except.error () else Except.ok (t + c))
      [10, 20] [11, 22] [[10, 20], [20]] (by decide)⟩

theorem dispatchArgs_map_nondone {T R E : Type} (g : T → Job T R E)
    (hnd : ∀ a, (g a).isDone = false) (harg : ∀ a, (g a).argD = some a) :
    ∀ arr : List T, dispatchArgs (arr.map g) = arr := by
  intro arr
  induction arr with
  | nil => rfl
  | cons a t ih =>
    rw [List.map_cons, dispatchArgs_cons, hnd a, harg a]
    simp [ih]

theorem mapExcept_map_ok {α β γ ε : Type} (f : α → Except ε β) (g : γ → α) (h2 : γ → β)
    (hok : ∀ x, f (g x) = .ok (h2 x)) :
    ∀ l : List γ, mapExcept f (l.map g) = .ok (l.map h2) := by
  intro l
  induction l with
  | nil => rfl
  | cons x t ih =>
    rw [List.map_cons, mapExcept_cons, hok x, ih]
    rfl

theorem stepJob_nondone {T R E : Type} (isOn : E → Bool) (f : T → Except E R)
    (j : Job T R E) (a : T) (hnd : j.isDone = false) (ha : j.argD = some a) :
    stepJob isOn f j = return_job isOn f a := by
  cases j with
  | done r => simp [Job.isDone] at hnd
  | new a1 =>
    simp only [Job.argD, Option.some.injEq] at ha
    subst ha
    rfl
  | failed a1 e =>
    simp only [Job.argD, Option.some.injEq] at ha
    subst ha
    rfl

theorem filterMap_failD_map_failed {T R E : Type} (err1 : T → E) (arr : List T) :
    (arr.map fun a => (Job.failed a (err1 a) : Job T R E)).filterMap Job.failD =
      arr.map fun a => (a, err1 a) := by
  induction arr with
  | nil => rfl
  | cons a t ih => simp [List.filterMap_cons, Job.failD, ih]

theorem wrappedMapperLoop_all_fail {T R E : Type} (isOn : E → Bool)
    (fn : Nat → T → Except E R) (arr : List T) (err : Nat → T → E)
    (hfail : ∀ c t, fn c t = .error (err c t))
    (hclass : ∀ c t, isOn (err c t) = true) (hne : arr ≠ []) :
    ∀ (r c : Nat) (g : T → Job T R E) (jobs : List (Job T R E)) (trace : List (List T)),
      jobs = arr.map g → (∀ a, (g a).isDone = false) → (∀ a, (g a).argD = some a) →
      wrappedMapperLoop isOn fn arr.length c (r + 1) jobs trace =
        (.jobsFailed (arr.map fun a => (a, err (c + r) a)),
          trace ++ List.replicate (r + 1) arr) := by
  intro r
  induction r with
  | zero =>
    intro c g jobs trace hjobs hnd harg
    subst hjobs
    have hstep : ∀ a, stepJob isOn (fn c) (g a) = .ok (Job.failed a (err c a)) := by
      intro a
      rw [stepJob_nondone isOn (fn c) (g a) a (hnd a) (harg a)]
      simp [return_job, hfail c a, hclass c a]
    have hrr : runRound isOn (fn c) (arr.map g) =
        .ok (arr.map fun a => Job.failed a (err c a)) := by
      rw [runRound_eq_mapExcept]
      exact mapExcept_map_ok _ g _ hstep arr
    obtain ⟨a0, ha0⟩ := List.exists_mem_of_ne_nil arr hne
    have hany : (arr.map fun a => (Job.failed a (err c a) : Job T R E)).any
        Job.isFailed = true :=
      List.any_eq_true.mpr ⟨Job.failed a0 (err c a0), List.mem_map_of_mem _ ha0, rfl⟩
    rw [wrappedMapperLoop_succ, hrr]
    dsimp only
    rw [if_pos hany, wrappedMapperLoop_zero, filterMap_failD_map_failed,
      dispatchArgs_map_nondone g hnd harg arr]
    simp
  | succ r ih =>
    intro c g jobs trace hjobs hnd harg
    subst hjobs
    have hstep : ∀ a, stepJob isOn (fn c) (g a) = .ok (Job.failed a (err c a)) := by
      intro a
      rw [stepJob_nondone isOn (fn c) (g a) a (hnd a) (harg a)]
      simp [return_job, hfail c a, hclass c a]
    have hrr : runRound isOn (fn c) (arr.map g) =
        .ok (arr.map fun a => Job.failed a (err c a)) := by
      rw [runRound_eq_mapExcept]
      exact mapExcept_map_ok _ g _ hstep arr
    obtain ⟨a0, ha0⟩ := List.exists_mem_of_ne_nil arr hne
    have hany : (arr.map fun a => (Job.failed a (err c a) : Job T R E)).any
        Job.isFailed = true :=
      List.any_eq_true.mpr ⟨Job.failed a0 (err c a0), List.mem_map_of_mem _ ha0, rfl⟩
    rw [wrappedMapperLoop_succ, hrr]
    dsimp only
    rw [if_pos hany, dispatchArgs_map_nondone g hnd harg arr,
      ih (c + 1) (fun a => Job.failed a (err c a)) _ (trace ++ [arr]) rfl
        (fun a => rfl) (fun a => rfl)]
    have hidx : c + 1 + r = c + (r + 1) := by omega
    rw [hidx]
    simp [List.append_assoc, List.replicate_succ]

/-- C2 (amended): for a NON-EMPTY item collection, if every invocation of
`fn` raises an error classified by `on`, the wrapped mapper re-dispatches
every item in each of the `count` rounds (so `fn` is invoked exactly
`count x itemCount` times, the sum of the dispatched batch sizes), and then
raises `JobsFailed` carrying one `(argument, last error)` entry per item,
with every item represented in input order. -/
theorem wrapped_mapper_all_classified {T R E : Type} (isOn : E → Bool) (count : Nat)
    (fn : Nat → T → Except E R) (arr : List T) (err : Nat → T → E)
    (hcount : 1 ≤ count) (hne : arr ≠ [])
    (hfail : ∀ c t, fn c t = .error (err c t))
    (hclass : ∀ c t, isOn (err c t) = true) :
    wrapped_mapper isOn count fn arr =
      (.jobsFailed (arr.map fun a => (a, err count a)), List.replicate count arr) ∧
    ((wrapped_mapper isOn count fn arr).2.map List.length).sum = count * arr.length := by
  obtain ⟨r, rfl⟩ : ∃ r, count = r + 1 := ⟨count - 1, by omega⟩
  have hmain := wrappedMapperLoop_all_fail isOn fn arr err hfail hclass hne r 1 Job.new
    (arr.map Job.new) [] rfl (fun a => rfl) (fun a => rfl)
  have hidx : 1 + r = r + 1 := by omega
  rw [hidx] at hmain
  constructor
  · rw [wrapped_mapper, hmain]
    simp
  · rw [wrapped_mapper, hmain]
    simp [List.map_replicate, List.sum_replicate, smul_eq_mul, Nat.mul_comm]

/-- Counterexample to C2 as stated: on the empty collection, every
invocation of `fn` (there are none) vacuously raises a classified error,
yet the wrapped mapper returns an empty success result instead of raising
`JobsFailed`, and the underlying mapper still runs one round. -/
theorem wrapped_mapper_all_classified_counterexample :
    wrapped_mapper (fun _ : Unit => true)
        2 (fun _ _ => (Except.error () : Except Unit Nat)) ([] : List Nat) =
      (MapOutcome.success [], [[]]) ∧
    (wrapped_mapper (fun _ : Unit => true)
        2 (fun _ _ => (Except.error () : Except Unit Nat)) ([] : List Nat)).1 ≠
      MapOutcome.jobsFailed [] := by
  decide

/-- Witness for C2 (amended): two items that always fail with a classified
error under `count = 3`: three full rounds are dispatched and `JobsFailed`
carries both items. -/
theorem wrapped_mapper_all_classified_witness :
    (1 ≤ 3 ∧ ([5, 7] : List Nat) ≠ []) ∧
    wrapped_mapper (fun _ : Unit => true) 3
        (fun _ _ => (Except.error () : Except Unit Nat)) [5, 7] =
      (MapOutcome.jobsFailed [(5, ()), (7, ())], List.replicate 3 [5, 7]) ∧
    ((wrapped_mapper (fun _ : Unit => true) 3
        (fun _ _ => (Except.error () : Except Unit Nat)) [5, 7]).2.map List.length).sum =
      3 * ([5, 7] : List Nat).length :=
  ⟨⟨by decide, by decide⟩,
    (wrapped_mapper_all_classified (fun _ : Unit => true) 3
      (fun _ _ => (Except.error () : Except Unit Nat)) [5, 7] (fun _ _ => ())
      (by decide) (by decide) (fun _ _ => rfl) (fun _ _ => rfl)).1,
    (wrapped_mapper_all_classified (fun _ : Unit => true) 3
      (fun _ _ => (Except.error () : Except Unit Nat)) [5, 7] (fun _ _ => ())
      (by decide) (by decide) (fun _ _ => rfl) (fun _ _ => rfl)).2⟩

/-- Item `a` is still un-completed at the start of round `c`: every earlier
round's invocation of `fn` on it failed with a classified error.  Such
items are exactly the ones re-dispatched in round `c`, so the invocations a
run actually performs in round `c` are `fn c a` for the dispatched `a`. -/
def Dispatched {T R E : Type} (isOn : E → Bool) (fn : Nat → T → Except E R)
    (a : T) (c : Nat) : Prop :=
  ∀ k, 1 ≤ k → k < c → failsClassified isOn (fn k a)

/-- Exact job state at the start of round `c`, for runs in which no earlier
invocation raised an unclassified error: a job is non-completed exactly
when its item is still dispatched. -/
def JobSync {T R E : Type} (isOn : E → Bool) (fn : Nat → T → Except E R) (a : T)
    (c : Nat) : Job T R E → Prop
  | .new a1 => a1 = a ∧ c = 1
  | .done _ => ¬ Dispatched isOn fn a c
  | .failed a1 _ => a1 = a ∧ Dispatched isOn fn a c

theorem mapExcept_ok_of_forall {α β ε : Type} (f : α → Except ε β) :
    ∀ l : List α, (∀ x ∈ l, ∃ y, f x = .ok y) → ∃ l2, mapExcept f l = .ok l2 := by
  intro l
  induction l with
  | nil => exact fun _ => ⟨[], rfl⟩
  | cons x t ih =>
    intro hall
    obtain ⟨y, hy⟩ := hall x (List.mem_cons_self x t)
    obtain ⟨l2, hl2⟩ := ih (fun z hz => hall z (List.mem_cons_of_mem x hz))
    exact ⟨y :: l2, by rw [mapExcept_cons, hy, hl2]⟩

theorem stepJob_sync {T R E : Type} (isOn : E → Bool) (fn : Nat → T → Except E R)
    (a : T) (c m : Nat) (hc : 1 ≤ c) (hcm : c < m)
    (hpre1 : Dispatched isOn fn a c → ∀ e', fn c a = .error e' → isOn e' = true)
    (j j1 : Job T R E) (hsync : JobSync isOn fn a c j)
    (hstep : stepJob isOn (fn c) j = .ok j1) : JobSync isOn fn a (c + 1) j1 := by
  cases j with
  | done v =>
    cases hstep
    intro hdisp
    exact hsync (fun k hk1 hk2 => hdisp k hk1 (by omega))
  | new a1 =>
    obtain ⟨heq, hc1⟩ := hsync
    subst heq
    have hdispc : Dispatched isOn fn a1 c := by
      intro k hk1 hk2
      rw [hc1] at hk2
      exact absurd hk1 (by omega)
    cases hf : fn c a1 with
    | ok v =>
      simp only [stepJob, return_job, hf] at hstep
      cases hstep
      intro hdisp
      obtain ⟨e2, hf2, -⟩ := hdisp c hc (by omega)
      rw [hf] at hf2
      cases hf2
    | error e1 =>
      have hcl := hpre1 hdispc e1 hf
      simp only [stepJob, return_job, hf, hcl, if_pos] at hstep
      cases hstep
      refine ⟨rfl, fun k hk1 hk2 => ?_⟩
      rcases Nat.lt_or_ge k c with hkc | hkc
      · exact hdispc k hk1 hkc
      · have hkc2 : k = c := by omega
        subst hkc2
        exact ⟨e1, hf, hcl⟩
  | failed a1 e0 =>
    obtain ⟨heq, hdispc⟩ := hsync
    subst heq
    cases hf : fn c a1 with
    | ok v =>
      simp only [stepJob, return_job, hf] at hstep
      cases hstep
      intro hdisp
      obtain ⟨e2, hf2, -⟩ := hdisp c hc (by omega)
      rw [hf] at hf2
      cases hf2
    | error e1 =>
      have hcl := hpre1 hdispc e1 hf
      simp only [stepJob, return_job, hf, hcl, if_pos] at hstep
      cases hstep
      refine ⟨rfl, fun k hk1 hk2 => ?_⟩
      rcases Nat.lt_or_ge k c with hkc | hkc
      · exact hdispc k hk1 hkc
      · have hkc2 : k = c := by omega
        subst hkc2
        exact ⟨e1, hf, hcl⟩

theorem wrappedMapperLoop_raises {T R E : Type} (isOn : E → Bool)
    (fn : Nat → T → Except E R) (arr : List T) (i : Nat) (a : T) (e : E) (m : Nat)
    (ha : arr.get? i = some a)
    (haDisp : Dispatched isOn fn a m)
    (he : fn m a = .error e) (hun : isOn e = false)
    (hpre : ∀ (k : Nat) (t : T), 1 ≤ k → k < m → t ∈ arr →
      Dispatched isOn fn t k → ∀ e1, fn k t = .error e1 → isOn e1 = true)
    (hfirst : ∀ (j : Nat) (b : T), j < i → arr.get? j = some b →
      Dispatched isOn fn b m → ∀ e1, fn m b = .error e1 → isOn e1 = true) :
    ∀ (d remaining c : Nat) (jobs : List (Job T R E)) (trace : List (List T)),
      c + d = m → d < remaining → 1 ≤ c →
      jobs.length = arr.length →
      (∀ (i1 : Nat) (a1 : T) (j : Job T R E), arr.get? i1 = some a1 →
        jobs.get? i1 = some j → JobSync isOn fn a1 c j) →
      ∃ trace1, wrappedMapperLoop isOn fn arr.length c remaining jobs trace =
        (.raised e, trace ++ trace1) ∧ trace1.length = d + 1 := by
  intro d
  induction d with
  | zero =>
    intro remaining c jobs trace hsum hrem hc hlen hsync
    have hmc : m = c := by omega
    subst hmc
    obtain ⟨r, rfl⟩ : ∃ r, remaining = r + 1 := ⟨remaining - 1, by omega⟩
    have hme : mapExcept (stepJob isOn (fn m)) jobs = .error e := by
      have hia : i < arr.length := by
        obtain ⟨hlt, -⟩ := List.get?_eq_some.mp ha
        exact hlt
      have hilt : i < jobs.length := by omega
      have hj : jobs.get? i = some (jobs.get ⟨i, hilt⟩) := List.get?_eq_get hilt
      apply mapExcept_error_at _ _ i (jobs.get ⟨i, hilt⟩) e hj
      · have hsynca := hsync i a _ ha hj
        cases hjv : jobs.get ⟨i, hilt⟩ with
        | done v =>
          rw [hjv] at hsynca
          exact absurd haDisp hsynca
        | new a1 =>
          rw [hjv] at hsynca
          obtain ⟨heq, -⟩ := hsynca
          subst heq
          simp [stepJob, return_job, he, hun]
        | failed a1 e0 =>
          rw [hjv] at hsynca
          obtain ⟨heq, -⟩ := hsynca
          subst heq
          simp [stepJob, return_job, he, hun]
      · intro j1 b1 hj1 hjb1
        have hj1a : j1 < arr.length := by omega
        have hb0 : arr.get? j1 = some (arr.get ⟨j1, hj1a⟩) := List.get?_eq_get hj1a
        have hsyncb := hsync j1 _ b1 hb0 hjb1
        cases b1 with
        | done v => exact ⟨.done v, rfl⟩
        | new a1 =>
          obtain ⟨heq, hc1⟩ := hsyncb
          have hdispb : Dispatched isOn fn a1 m := by
            intro k hk1 hk2
            rw [hc1] at hk2
            exact absurd hk1 (by omega)
          cases hf : fn m a1 with
          | ok v => exact ⟨.done v, by simp [stepJob, return_job, hf]⟩
          | error e1 =>
            have hb0a : arr.get? j1 = some a1 := by rw [hb0, heq]
            have hcl := hfirst j1 a1 hj1 hb0a hdispb e1 hf
            exact ⟨.failed a1 e1, by simp [stepJob, return_job, hf, hcl]⟩
        | failed a1 e0 =>
          obtain ⟨heq, hdispb⟩ := hsyncb
          have hdispb1 : Dispatched isOn fn a1 m := heq ▸ hdispb
          cases hf : fn m a1 with
          | ok v => exact ⟨.done v, by simp [stepJob, return_job, hf]⟩
          | error e1 =>
            have hb0a : arr.get? j1 = some a1 := by rw [hb0, heq]
            have hcl := hfirst j1 a1 hj1 hb0a hdispb1 e1 hf
            exact ⟨.failed a1 e1, by simp [stepJob, return_job, hf, hcl]⟩
    have hrr : runRound isOn (fn m) jobs = .error e := by
      rw [runRound_eq_mapExcept]
      exact hme
    refine ⟨[dispatchArgs jobs], ?_, rfl⟩
    rw [wrappedMapperLoop_succ, hrr]
  | succ d ih =>
    intro remaining c jobs trace hsum hrem hc hlen hsync
    have hcm : c < m := by omega
    obtain ⟨r, rfl⟩ : ∃ r, remaining = r + 1 := ⟨remaining - 1, by omega⟩
    have hall : ∀ j ∈ jobs, ∃ j1, stepJob isOn (fn c) j = .ok j1 := by
      intro j hj
      obtain ⟨i1, hi1⟩ := List.mem_iff_get?.mp hj
      have hilt : i1 < arr.length := by
        obtain ⟨hlt, -⟩ := List.get?_eq_some.mp hi1
        omega
      have ha1 : arr.get? i1 = some (arr.get ⟨i1, hilt⟩) := List.get?_eq_get hilt
      have hsynci := hsync i1 _ j ha1 hi1
      cases j with
      | done r0 => exact ⟨.done r0, rfl⟩
      | new a1 =>
        obtain ⟨heq, hc1⟩ := hsynci
        have hmem1 : a1 ∈ arr := by
          rw [heq]
          exact List.get?_mem ha1
        have hdisp1 : Dispatched isOn fn a1 c := by
          intro k hk1 hk2
          rw [hc1] at hk2
          exact absurd hk1 (by omega)
        cases hf : fn c a1 with
        | ok v => exact ⟨.done v, by simp [stepJob, return_job, hf]⟩
        | error e1 =>
          have hcl := hpre c a1 hc hcm hmem1 hdisp1 e1 hf
          exact ⟨.failed a1 e1, by simp [stepJob, return_job, hf, hcl]⟩
      | failed a1 e0 =>
        obtain ⟨heq, hdisp1⟩ := hsynci
        have hdisp2 : Dispatched isOn fn a1 c := heq ▸ hdisp1
        have hmem1 : a1 ∈ arr := by
          rw [heq]
          exact List.get?_mem ha1
        cases hf : fn c a1 with
        | ok v => exact ⟨.done v, by simp [stepJob, return_job, hf]⟩
        | error e1 =>
          have hcl := hpre c a1 hc hcm hmem1 hdisp2 e1 hf
          exact ⟨.failed a1 e1, by simp [stepJob, return_job, hf, hcl]⟩
    obtain ⟨jobs1, hok⟩ := mapExcept_ok_of_forall (stepJob isOn (fn c)) jobs hall
    have hrr : runRound isOn (fn c) jobs = .ok jobs1 := by
      rw [runRound_eq_mapExcept]
      exact hok
    have hlen1 : jobs1.length = jobs.length := mapExcept_ok_length _ jobs jobs1 hok
    have hsync1 : ∀ (i1 : Nat) (a1 : T) (j1 : Job T R E), arr.get? i1 = some a1 →
        jobs1.get? i1 = some j1 → JobSync isOn fn a1 (c + 1) j1 := by
      intro i1 a1 j1 ha1 hj1
      have hilt : i1 < jobs.length := by
        obtain ⟨hlt, -⟩ := List.get?_eq_some.mp hj1
        omega
      have hj : jobs.get? i1 = some (jobs.get ⟨i1, hilt⟩) := List.get?_eq_get hilt
      obtain ⟨j1x, hj1x, hstep⟩ := mapExcept_ok_get _ jobs jobs1 hok i1 _ hj
      rw [hj1] at hj1x
      cases hj1x
      have hmem1 : a1 ∈ arr := List.get?_mem ha1
      exact stepJob_sync isOn fn a1 c m hc hcm
        (fun hdisp e1 hf => hpre c a1 hc hcm hmem1 hdisp e1 hf)
        _ _ (hsync i1 a1 _ ha1 hj) hstep
    have hia : i < arr.length := by
      obtain ⟨hlt, -⟩ := List.get?_eq_some.mp ha
      exact hlt
    have hilt : i < jobs.length := by omega
    have hj : jobs.get? i = some (jobs.get ⟨i, hilt⟩) := List.get?_eq_get hilt
    have hsynca := hsync i a _ ha hj
    obtain ⟨ec, hfc, hcl⟩ : failsClassified isOn (fn c a) := haDisp c hc (by omega)
    have hdispc : Dispatched isOn fn a c := fun k hk1 hk2 => haDisp k hk1 (by omega)
    have hstepa : stepJob isOn (fn c) (jobs.get ⟨i, hilt⟩) = .ok (.failed a ec) := by
      cases hjv : jobs.get ⟨i, hilt⟩ with
      | done v =>
        rw [hjv] at hsynca
        exact absurd hdispc hsynca
      | new a1 =>
        rw [hjv] at hsynca
        obtain ⟨heq, -⟩ := hsynca
        subst heq
        simp [stepJob, return_job, hfc, hcl]
      | failed a1 e0 =>
        rw [hjv] at hsynca
        obtain ⟨heq, -⟩ := hsynca
        subst heq
        simp [stepJob, return_job, hfc, hcl]
    obtain ⟨j1i, hj1i, hstep1⟩ := mapExcept_ok_get _ jobs jobs1 hok i _ hj
    rw [hstepa] at hstep1
    cases hstep1
    have hfail : jobs1.any Job.isFailed = true :=
      List.any_eq_true.mpr ⟨_, List.get?_mem hj1i, rfl⟩
    rw [wrappedMapperLoop_succ, hrr]
    dsimp only
    rw [if_pos hfail]
    obtain ⟨trace1, heq1, hlen2⟩ := ih r (c + 1) jobs1 (trace ++ [dispatchArgs jobs])
      (by omega) (by omega) (by omega) (by rw [hlen1, hlen]) hsync1
    refine ⟨dispatchArgs jobs :: trace1, ?_, by simp [hlen2]⟩
    rw [heq1]
    simp [List.append_assoc]

/-- C3: if some invocation of `fn` raises an error not classified by `on` —
i.e. the run has a first unclassified invocation in dispatch order, at some
round `m` on the item at position `i`, every invocation the run performs
earlier (rounds `k < m` on still-dispatched items, and round `m` on
dispatched items before position `i`) succeeding or failing with a
classified error — then that error propagates out of the wrapped mapper
unwrapped (never as `JobsFailed`), aborting the whole batch: exactly `m`
rounds are dispatched, so the failing item is not retried after the
unclassified error and no aggregate failure is produced for it.  The round
`m` is arbitrary: the unclassified error may first arise in a retry round
after classified failures. -/
theorem wrapped_mapper_unclassified_aborts {T R E : Type} (isOn : E → Bool)
    (count : Nat) (fn : Nat → T → Except E R) (arr : List T)
    (i m : Nat) (a : T) (e : E)
    (hm1 : 1 ≤ m) (hm2 : m ≤ count)
    (ha : arr.get? i = some a)
    (haDisp : Dispatched isOn fn a m)
    (he : fn m a = .error e) (hun : isOn e = false)
    (hpre : ∀ (k : Nat) (t : T), 1 ≤ k → k < m → t ∈ arr →
      Dispatched isOn fn t k → ∀ e1, fn k t = .error e1 → isOn e1 = true)
    (hfirst : ∀ (j : Nat) (b : T), j < i → arr.get? j = some b →
      Dispatched isOn fn b m → ∀ e1, fn m b = .error e1 → isOn e1 = true) :
    ∃ trace, wrapped_mapper isOn count fn arr = (.raised e, trace) ∧
      trace.length = m := by
  obtain ⟨trace1, heq, hlen⟩ := wrappedMapperLoop_raises isOn fn arr i a e m ha haDisp
    he hun hpre hfirst (m - 1) count 1 (arr.map Job.new) [] (by omega) (by omega)
    (Nat.le_refl 1) (by simp)
    (fun i1 a1 j ha1 hj => by
      rw [List.get?_map, ha1] at hj
      cases hj
      exact ⟨rfl, rfl⟩)
  refine ⟨trace1, ?_, by omega⟩
  rw [wrapped_mapper, heq]
  simp

/-- Witness for C3: the unclassified error arises in round 2, after both
items fail with classified errors in round 1: item 1 succeeds on its retry
and item 2 raises an unclassified error, which propagates after exactly two
dispatched rounds. -/
theorem wrapped_mapper_unclassified_aborts_witness :
    (([1, 2] : List Nat).get? 1 = some 2 ∧ (fun b : Bool => b) false = false) ∧
    ∃ trace, wrapped_mapper (fun b : Bool => b) 2
        (fun c t => if c = 1 then Except.error true
          else if t = 1 then Except.ok 10 else (Except.error false : Except Bool Nat))
        [1, 2] = (MapOutcome.raised false, trace) ∧ trace.length = 2 :=
  ⟨⟨rfl, rfl⟩,
    wrapped_mapper_unclassified_aborts (fun b : Bool => b) 2
      (fun c t => if c = 1 then Except.error true
        else if t = 1 then Except.ok 10 else (Except.error false : Except Bool Nat))
      [1, 2] 1 2 2 false (by decide) (by decide) rfl
      (fun k hk1 hk2 => by
        have hk : k = 1 := by omega
        subst hk
        exact ⟨true, rfl, rfl⟩)
      rfl rfl
      (fun k t hk1 hk2 hmem hdisp e1 hf => by
        have hk : k = 1 := by omega
        subst hk
        cases hf
        rfl)
      (fun j b hj hjb hdisp e1 hf => by
        have hj0 : j = 0 := by omega
        subst hj0
        simp only [List.get?] at hjb
        cases hjb
        cases hf)⟩

/-- Counterexample to C8 as stated: on the empty collection the wrapped
mapper does run a round and does invoke the underlying mapper once (with
the empty argument list): the mapper-invocation trace is `[[]]`, not the
empty trace that "the underlying mapper is never invoked" would give. -/
theorem wrapped_mapper_empty_counterexample :
    (wrapped_mapper (fun _ : Unit => true) 1
        (fun _ _ => (Except.ok 0 : Except Unit Nat)) ([] : List Nat)).2 = [[]] ∧
    (wrapped_mapper (fun _ : Unit => true) 1
        (fun _ _ => (Except.ok 0 : Except Unit Nat)) ([] : List Nat)).2 ≠
      ([] : List (List Nat)) ∧
    (wrapped_mapper (fun _ : Unit => true) 1
        (fun _ _ => (Except.ok 0 : Except Unit Nat)) ([] : List Nat)).1 =
      MapOutcome.success [] := by
  decide

/-- C8 (amended): for every mapping behaviour and retry count >= 1, the
wrapped mapper applied to the empty collection returns the empty result at
the end of its first round; the underlying mapper is invoked exactly once,
with the empty argument list (so `fn` itself is never invoked). -/
theorem wrapped_mapper_empty {T R E : Type} (isOn : E → Bool) (count : Nat)
    (fn : Nat → T → Except E R) (hcount : 1 ≤ count) :
    wrapped_mapper isOn count fn ([] : List T) = (.success [], [[]]) := by
  obtain ⟨r, rfl⟩ : ∃ r, count = r + 1 := ⟨count - 1, by omega⟩
  rfl

/-- Witness for C8 (amended) at a concrete retry count. -/
theorem wrapped_mapper_empty_witness :
    1 ≤ 2 ∧ wrapped_mapper (fun _ : Unit => true) 2
        (fun _ _ => (Except.ok 0 : Except Unit Nat)) ([] : List Nat) =
      (MapOutcome.success [], [[]]) :=
  ⟨by decide,
    wrapped_mapper_empty (fun _ : Unit => true) 2
      (fun _ _ => (Except.ok 0 : Except Unit Nat)) (by decide)⟩

/-- Result of one underlying filesystem call (`mkdir_p` / `cp_p`) on one
item in one round: success, an `OSError`, or any other exception. -/
inductive FsOutcome (E : Type) where
  | ok
  | osErr (e : E)
  | otherErr (e : E)
  deriving DecidableEq

/-- `_mkdir_p_passthrough_on_fail` / `_cp_p_passthrough_on_fail`: `none` on
success, the original argument when an `OSError` was caught, and any other
exception propagates. -/
def passthrough_on_fail {α E : Type} (op : α → FsOutcome E) (x : α) :
    Except E (Option α) :=
  match op x with
  | .ok => .ok none
  | .osErr _ => .ok (some x)
  | .otherErr e => .error e

/-- One round of `mkdir_p_parallel` / `cp_p_parallel`: dispatch the batch
through the pool mapper and keep the arguments of the failed calls
(`result is not None`). -/
def fsRound {α E : Type} (op : α → FsOutcome E) (items : List α) :
    Except E (List α) :=
  match mapExcept (passthrough_on_fail op) items with
  | .error e => .error e
  | .ok res => .ok (res.filterMap id)

/-- Outcome of `mkdir_p_parallel` / `cp_p_parallel`. -/
inductive FsParOutcome (α E : Type) where
  | ok
  /-- The final `RuntimeError` naming the items that never succeeded. -/
  | failed (items : List α)
  /-- A non-`OSError` exception propagating out of the pool. -/
  | raised (e : E)
  /-- The `ValueError` raised when `retry_count <= 0`. -/
  | valueError
  /-- The trailing `AssertionError("Should never be reached")`. -/
  | assertFailed
  deriving DecidableEq

/-- The `for i in range(retry_count + 1)` loop, with `remaining + 1` the
number of iterations still to run (the current one included) and `i` the
current index (`i < retry_count` iff `remaining ≠ 0`).  Falling off the
loop (`remaining = 0` pattern) is the source's unreachable assertion.  The
trace records the batch dispatched in each round. -/
def fsLoop {α E : Type} (env : Nat → α → FsOutcome E) :
    Nat → Nat → List α → List (List α) → FsParOutcome α E × List (List α)
  | _, 0, _, trace => (.assertFailed, trace)
  | i, remaining + 1, items, trace =>
    match fsRound (env i) items with
    | .error e => (.raised e, trace ++ [items])
    | .ok stillFailed =>
      if stillFailed.isEmpty then (.ok, trace ++ [items])
      else if remaining = 0 then (.failed stillFailed, trace ++ [items])
      else fsLoop env (i + 1) remaining stillFailed (trace ++ [items])

/-- `mkdir_p_parallel(path_multi, ..., retry_count)`: `env i p` is the
outcome of attempting `mkdir_p(p)` in round `i`. -/
def mkdir_p_parallel {α E : Type} (env : Nat → α → FsOutcome E)
    (retry_count : Nat) (paths : List α) : FsParOutcome α E × List (List α) :=
  if retry_count = 0 then (.valueError, [])
  else fsLoop env 0 (retry_count + 1) paths []

/-- `cp_p_parallel(src_dst_multi, ..., retry_count)`: textually the same
loop as `mkdir_p_parallel`, over `(src, dst)` pairs. -/
def cp_p_parallel {α E : Type} (env : Nat → α → FsOutcome E)
    (retry_count : Nat) (pairs : List α) : FsParOutcome α E × List (List α) :=
  if retry_count = 0 then (.valueError, [])
  else fsLoop env 0 (retry_count + 1) pairs []

theorem fsLoop_succ {α E : Type} (env : Nat → α → FsOutcome E) (i remaining : Nat)
    (items : List α) (trace : List (List α)) :
    fsLoop env i (remaining + 1) items trace =
      match fsRound (env i) items with
      | .error e => (.raised e, trace ++ [items])
      | .ok stillFailed =>
        if stillFailed.isEmpty then (.ok, trace ++ [items])
        else if remaining = 0 then (.failed stillFailed, trace ++ [items])
        else fsLoop env (i + 1) remaining stillFailed (trace ++ [items]) := rfl

theorem fsRound_all_osErr {α E : Type} (op : α → FsOutcome E) (err1 : α → E)
    (hop : ∀ x, op x = .osErr (err1 x)) (items : List α) :
    fsRound op items = .ok items := by
  unfold fsRound
  have hme : mapExcept (passthrough_on_fail op) items = .ok (items.map some) := by
    have := mapExcept_map_ok (passthrough_on_fail op) id some
      (fun x => by simp [passthrough_on_fail, hop x]) items
    simpa using this
  rw [hme]
  simp

theorem fsLoop_all_osErr {α E : Type} (env : Nat → α → FsOutcome E) (err1 : α → E)
    (henv : ∀ i x, env i x = .osErr (err1 x)) (paths : List α) (hne : paths ≠ []) :
    ∀ (n i : Nat) (trace : List (List α)),
      fsLoop env i (n + 1) paths trace =
        (.failed paths, trace ++ List.replicate (n + 1) paths) := by
  have hemp : paths.isEmpty = false := by
    cases paths with
    | nil => exact absurd rfl hne
    | cons a t => rfl
  intro n
  induction n with
  | zero =>
    intro i trace
    rw [fsLoop_succ, fsRound_all_osErr (env i) err1 (fun x => henv i x) paths]
    dsimp only
    rw [hemp]
    simp
  | succ n ih =>
    intro i trace
    rw [fsLoop_succ, fsRound_all_osErr (env i) err1 (fun x => henv i x) paths]
    dsimp only
    rw [hemp]
    simp only [Bool.false_eq_true, if_false, Nat.succ_ne_zero, ih (i + 1) (trace ++ [paths])]
    simp [List.append_assoc, List.replicate_succ]

theorem fsLoop_trace_chain {α E : Type} (env : Nat → α → FsOutcome E) :
    ∀ (nIter i : Nat) (items : List α) (trace0 : List (List α))
      (out : FsParOutcome α E) (trace : List (List α)),
      fsLoop env i nIter items trace0 = (out, trace) →
      ∃ rounds : List (List α),
        trace = trace0 ++ rounds ∧
        (nIter ≠ 0 → rounds.head? = some items) ∧
        ∀ (k : Nat) (t1 t2 : List α), rounds.get? k = some t1 →
          rounds.get? (k + 1) = some t2 → fsRound (env (i + k)) t1 = .ok t2 := by
  intro nIter
  induction nIter with
  | zero =>
    intro i items trace0 out trace h
    cases h
    exact ⟨[], by simp, fun hc => absurd rfl hc, fun k t1 t2 h1 _ => by simp at h1⟩
  | succ n ih =>
    intro i items trace0 out trace h
    rw [fsLoop_succ] at h
    cases hr : fsRound (env i) items with
    | error e =>
      rw [hr] at h
      cases h
      refine ⟨[items], rfl, fun _ => rfl, ?_⟩
      intro k t1 t2 _ h2
      cases k <;> simp at h2
    | ok still =>
      rw [hr] at h
      dsimp only at h
      by_cases hempty : still.isEmpty = true
      · rw [if_pos hempty] at h
        cases h
        refine ⟨[items], rfl, fun _ => rfl, ?_⟩
        intro k t1 t2 _ h2
        cases k <;> simp at h2
      · rw [if_neg hempty] at h
        by_cases hrem : n = 0
        · subst hrem
          rw [if_pos rfl] at h
          cases h
          refine ⟨[items], rfl, fun _ => rfl, ?_⟩
          intro k t1 t2 _ h2
          cases k <;> simp at h2
        · rw [if_neg hrem] at h
          obtain ⟨rounds, htr, hh, hchain⟩ := ih (i + 1) still (trace0 ++ [items]) out trace h
          refine ⟨items :: rounds, by simpa [List.append_assoc] using htr, fun _ => rfl, ?_⟩
          intro k t1 t2 h1 h2
          cases k with
          | zero =>
            simp only [List.get?] at h1 h2
            cases h1
            have hhd := hh hrem
            cases rounds with
            | nil => simp at hhd
            | cons r0 rs =>
              simp only [List.head?] at hhd
              cases hhd
              simp only [List.get?] at h2
              cases h2
              simpa using hr
          | succ k2 =>
            simp only [List.get?] at h1 h2
            have hc := hchain k2 t1 t2 h1 h2
            have hidx : i + 1 + k2 = i + (k2 + 1) := by omega
            rw [hidx] at hc
            exact hc

/-- C4 (amended): with the default retry configuration (`retry_count = 5`),
the batched filesystem operations `mkdir_p_parallel` and `cp_p_parallel`
retry only the still-failed items (each later dispatched batch is exactly
the failed subset returned by the previous round), classify exactly
`OSError` as retryable (any other error propagates without aggregation),
and attempt each persistently failing item exactly 6 times (1 initial
attempt + `retry_count = 5` retries) before raising an aggregate error
naming every path or (src, dst) pair that never succeeded. -/
theorem fs_parallel_retry_props {α β E : Type} :
    (∀ (paths : List α) (err1 : α → E), paths ≠ [] →
      mkdir_p_parallel (fun _ p => FsOutcome.osErr (err1 p)) 5 paths =
        (.failed paths, List.replicate 6 paths)) ∧
    (∀ (pairs : List β) (err1 : β → E), pairs ≠ [] →
      cp_p_parallel (fun _ q => FsOutcome.osErr (err1 q)) 5 pairs =
        (.failed pairs, List.replicate 6 pairs)) ∧
    (∀ (env : Nat → α → FsOutcome E) (rc : Nat) (paths : List α)
      (out : FsParOutcome α E) (trace : List (List α)),
      mkdir_p_parallel env rc paths = (out, trace) →
      ∀ (k : Nat) (t1 t2 : List α), trace.get? k = some t1 →
        trace.get? (k + 1) = some t2 → fsRound (env k) t1 = .ok t2) ∧
    (∀ (e : E) (x : α),
      mkdir_p_parallel (fun _ _ => (FsOutcome.otherErr e : FsOutcome E)) 5 [x] =
        (.raised e, [[x]])) := by
  refine ⟨?_, ?_, ?_, ?_⟩
  · intro paths err1 hne
    unfold mkdir_p_parallel
    rw [if_neg (by omega)]
    exact fsLoop_all_osErr (fun _ p => FsOutcome.osErr (err1 p)) err1
      (fun _ _ => rfl) paths hne 5 0 []
  · intro pairs err1 hne
    unfold cp_p_parallel
    rw [if_neg (by omega)]
    exact fsLoop_all_osErr (fun _ q => FsOutcome.osErr (err1 q)) err1
      (fun _ _ => rfl) pairs hne 5 0 []
  · intro env rc paths out trace h
    unfold mkdir_p_parallel at h
    by_cases hrc : rc = 0
    · rw [if_pos hrc] at h
      cases h
      intro k t1 t2 h1 _
      simp at h1
    · rw [if_neg hrc] at h
      obtain ⟨rounds, htr, -, hchain⟩ := fsLoop_trace_chain env (rc + 1) 0 paths [] out trace h
      intro k t1 t2 h1 h2
      rw [htr] at h1 h2
      simp only [List.nil_append] at h1 h2
      have hc := hchain k t1 t2 h1 h2
      simpa using hc
  · intro e x
    rfl

/-- Counterexample to C4 as stated: with the default `retry_count = 5`, a
persistently failing path is dispatched in 6 rounds (1 initial attempt + 5
retries), not at most 5 as the claim (maxAttempts = 5) states. -/
theorem fs_parallel_retry_counterexample :
    (mkdir_p_parallel (fun _ _ => (FsOutcome.osErr () : FsOutcome Unit)) 5
        [(0 : Nat)]).2 = List.replicate 6 [0] ∧
    (mkdir_p_parallel (fun _ _ => (FsOutcome.osErr () : FsOutcome Unit)) 5
        [(0 : Nat)]).2.length = 6 ∧
    ¬ (mkdir_p_parallel (fun _ _ => (FsOutcome.osErr () : FsOutcome Unit)) 5
        [(0 : Nat)]).2.length ≤ 5 := by
  decide

/-- Witness for C4 (amended): a single persistently failing path under each
operation, and a single unclassified error propagating. -/
theorem fs_parallel_retry_props_witness :
    ([(0 : Nat)] ≠ ([] : List Nat) ∧ [((0 : Nat), (1 : Nat))] ≠ ([] : List (Nat × Nat))) ∧
    mkdir_p_parallel (fun _ p => FsOutcome.osErr ((fun _ : Nat => ()) p)) 5 [(0 : Nat)] =
      (.failed [0], List.replicate 6 [0]) ∧
    cp_p_parallel (fun _ q => FsOutcome.osErr ((fun _ : Nat × Nat => ()) q)) 5
        [((0 : Nat), (1 : Nat))] =
      (.failed [(0, 1)], List.replicate 6 [(0, 1)]) ∧
    mkdir_p_parallel (fun _ _ => (FsOutcome.otherErr () : FsOutcome Unit)) 5 [(7 : Nat)] =
      (.raised (), [[7]]) :=
  ⟨⟨by decide, by decide⟩,
    (fs_parallel_retry_props (α := Nat) (β := Nat × Nat) (E := Unit)).1
      [0] (fun _ => ()) (by decide),
    (fs_parallel_retry_props (α := Nat) (β := Nat × Nat) (E := Unit)).2.1
      [(0, 1)] (fun _ => ()) (by decide),
    (fs_parallel_retry_props (α := Nat) (β := Nat × Nat) (E := Unit)).2.2.2 () 7⟩

/-- The two digest algorithms of `cksum`. -/
inductive HashAlgo where
  | sha256
  | sha512
  deriving DecidableEq

/-- Hex digest length documented for `hashlib`: `sha256().hexdigest()` has
64 characters and `sha512().hexdigest()` 128, for every input. -/
def hexLen : HashAlgo → Nat
  | .sha256 => 64
  | .sha512 => 128

/-- `cksum(path, digest=...)` of `filesystem.py`.  `hashHex a bs` models the
external `hashlib` hex digest of byte string `bs` under algorithm `a`;
`readBytes` models `path.read_bytes()`, `none` when the read raises.  When
the read raises, the warning path returns the empty string; otherwise the
hex digest of the file content is returned. -/
def cksum {P : Type} (hashHex : HashAlgo → List Nat → String)
    (readBytes : P → Option (List Nat)) (digest : HashAlgo) (path : P) : String :=
  match readBytes path with
  | none => ""
  | some bs => hashHex digest bs

/-- C5: for every path and algorithm, `cksum` returns the hex digest of the
file's bytes; for an unreadable path it returns the empty string instead of
raising; and, given hashlib's documented fixed hex digest lengths (64 for
sha256, 128 for sha512), the digest of a readable zero-length file is never
the empty string, so the unreadable sentinel and the empty-file digest
never coincide. -/
theorem cksum_digest_or_empty {P : Type} (hashHex : HashAlgo → List Nat → String)
    (readBytes : P → Option (List Nat)) (algo : HashAlgo)
    (hlen : ∀ a bs, (hashHex a bs).length = hexLen a) :
    (∀ p, readBytes p = none → cksum hashHex readBytes algo p = "") ∧
    (∀ p bs, readBytes p = some bs → cksum hashHex readBytes algo p = hashHex algo bs) ∧
    (∀ p, readBytes p = some [] → cksum hashHex readBytes algo p ≠ "") := by
  refine ⟨?_, ?_, ?_⟩
  · intro p hp
    unfold cksum
    rw [hp]
  · intro p bs hp
    unfold cksum
    rw [hp]
  · intro p hp hcontra
    unfold cksum at hcontra
    rw [hp] at hcontra
    dsimp only at hcontra
    have hlength := hlen algo []
    rw [hcontra] at hlength
    cases algo <;> simp [hexLen] at hlength

/-- Witness for C5: a toy fixed-length hex function; path 0 is unreadable
(empty-string sentinel), path 1 is a readable empty file (digest of length
64, not the empty string). -/
theorem cksum_digest_or_empty_witness :
    (∀ a bs, (((fun a _ => String.mk (List.replicate (hexLen a) 'a')) :
        HashAlgo → List Nat → String) a bs).length = hexLen a) ∧
    cksum (fun a _ => String.mk (List.replicate (hexLen a) 'a'))
        (fun n : Nat => if n = 0 then none else some []) HashAlgo.sha256 0 = "" ∧
    cksum (fun a _ => String.mk (List.replicate (hexLen a) 'a'))
        (fun n : Nat => if n = 0 then none else some []) HashAlgo.sha256 1 ≠ "" :=
  ⟨fun a _ => by cases a <;> rfl,
    (cksum_digest_or_empty (fun a _ => String.mk (List.replicate (hexLen a) 'a'))
      (fun n : Nat => if n = 0 then none else some []) HashAlgo.sha256
      (fun a _ => by cases a <;> rfl)).1 0 rfl,
    (cksum_digest_or_empty (fun a _ => String.mk (List.replicate (hexLen a) 'a'))
      (fun n : Nat => if n = 0 then none else some []) HashAlgo.sha256
      (fun a _ => by cases a <;> rfl)).2.2 1 rfl⟩

/-- A filesystem path together with the state of the file it names:
`content = none` models a file whose bytes cannot be read. -/
structure FsPath where
  name : String
  content : Option (List Nat)
  deriving DecidableEq

/-- Python `str.startswith`, computed on the character lists. -/
def strStartsWith (s p1 : String) : Bool :=
  p1.data.isPrefixOf s.data

/-- `is_image` of `filesystem.py`: `mimetypes.guess_type(path)` consults
only the path NAME (its extension), never the file content, so the model
takes a guess function on names; the result is true iff a type was guessed
and it starts with `image/`. -/
def is_image (guessType : String → Option String) (p : FsPath) : Bool :=
  match guessType p.name with
  | some filetype => strStartsWith filetype "image/"
  | none => false

/-- `name.endswith(ext)`, computed on the character lists. -/
def nameEndsWith (name ext : String) : Bool :=
  ext.data.isSuffixOf name.data

/-- Modelled from the CPython `mimetypes` documentation: `guess_type` maps
a filename extension to a MIME type using its built-in table (shown here on
a representative fragment of that table); the file is never opened. -/
def mimetypes_guess_type (name : String) : Option String :=
  if nameEndsWith name ".jpg" then some "image/jpeg"
  else if nameEndsWith name ".jpeg" then some "image/jpeg"
  else if nameEndsWith name ".png" then some "image/png"
  else if nameEndsWith name ".gif" then some "image/gif"
  else if nameEndsWith name ".txt" then some "text/plain"
  else none

/-- Counterexample to C9 as stated: an UNREADABLE path named `x.jpg`
(content cannot be read) is still classified as an image, because
`mimetypes.guess_type` looks only at the extension. -/
theorem is_image_unreadable_counterexample :
    (FsPath.mk "x.jpg" none).content = none ∧
    is_image mimetypes_guess_type (FsPath.mk "x.jpg" none) = true := by
  constructor
  · rfl
  · decide

/-- C9 (amended): `is_image` classifies by filename-extension MIME
guessing, not content sniffing: it is false whenever no type is guessed for
the name, equals the `image/`-test of the guessed type otherwise, and is
entirely independent of the file content (in particular unreadable paths
with image extensions are classified as images). -/
theorem is_image_name_based (guessType : String → Option String) :
    (∀ p : FsPath, guessType p.name = none → is_image guessType p = false) ∧
    (∀ (p : FsPath) (t : String), guessType p.name = some t →
      is_image guessType p = strStartsWith t "image/") ∧
    (∀ p q : FsPath, p.name = q.name → is_image guessType p = is_image guessType q) := by
  refine ⟨?_, ?_, ?_⟩
  · intro p hp
    unfold is_image
    rw [hp]
  · intro p t hp
    unfold is_image
    rw [hp]
  · intro p q hpq
    unfold is_image
    rw [hpq]

/-- Witness for C9 (amended): same name `x.jpg`, one readable and one
unreadable content — identical classification. -/
theorem is_image_name_based_witness :
    is_image mimetypes_guess_type (FsPath.mk "x.jpg" (some [1])) =
      is_image mimetypes_guess_type (FsPath.mk "x.jpg" none) ∧
    is_image mimetypes_guess_type (FsPath.mk "notes.txt" (some [1])) = false :=
  ⟨(is_image_name_based mimetypes_guess_type).2.2
      (FsPath.mk "x.jpg" (some [1])) (FsPath.mk "x.jpg" none) rfl,
    by
      have := (is_image_name_based mimetypes_guess_type).2.1
        (FsPath.mk "notes.txt" (some [1])) "text/plain" (by decide)
      rw [this]
      decide⟩

/-- Python dict lookup for a dict built by inserting `pairs` in order:
later insertions of the same key overwrite earlier ones, so the LAST
matching pair wins. -/
def pyDictLookup {V : Type} (pairs : List (String × V)) (k : String) : Option V :=
  ((pairs.filter (fun q => q.1 = k)).map Prod.snd).getLast?

/-- The `{img_hash: img_path for img_path, img_hash in zip(paths, hashes)}`
dictionary of `diff`: maps each digest to its representative path
(last-write-wins on duplicate digests within one source). -/
def hashToPath {P : Type} (hash : P → String) (src : List P) : String → Option P :=
  fun h => pyDictLookup ((src.zip (src.map hash)).map (fun q => (q.2, q.1))) h

/-- `set(xs)` determinized: fold left, keeping first occurrences. -/
def pySet (xs : List String) : List String :=
  xs.foldl (fun acc x => if x ∈ acc then acc else acc ++ [x]) []

theorem mem_pySet_foldl (xs : List String) :
    ∀ (acc : List String) (x : String),
      (x ∈ xs.foldl (fun acc x => if x ∈ acc then acc else acc ++ [x]) acc) ↔
        (x ∈ acc ∨ x ∈ xs) := by
  induction xs with
  | nil => intro acc x; simp
  | cons y ys ih =>
    intro acc x
    rw [List.foldl_cons, ih]
    by_cases hy : y ∈ acc
    · rw [if_pos hy]
      constructor
      · rintro (h | h)
        · exact Or.inl h
        · exact Or.inr (List.mem_cons_of_mem y h)
      · rintro (h | h)
        · exact Or.inl h
        · rcases List.mem_cons.mp h with rfl | h2
          · exact Or.inl hy
          · exact Or.inr h2
    · rw [if_neg hy]
      simp only [List.mem_append, List.mem_singleton, List.mem_cons]
      tauto

theorem mem_pySet (xs : List String) (x : String) : x ∈ pySet xs ↔ x ∈ xs := by
  unfold pySet
  rw [mem_pySet_foldl]
  simp

/-- The three output partitions a `diff` run materializes: for each entry,
the representative source path and its destination path relative to the
category directory (`dst/both`, `dst/src1_only`, `dst/src2_only`). -/
structure DiffPlan (P RP : Type) where
  both : List (P × RP)
  src1_only : List (P × RP)
  src2_only : List (P × RP)

/-- The pure partitioning core of `cli/diff.py` (and of the identical
`pyimorg/diff.py`): hash both image lists in order, build the
digest-to-representative dictionaries, form the digest sets
`H1 ∩ H2`, `H1 − H2`, `H2 − H1`, and map each category's digests to
`(representative source path, destination path)` pairs; `rel1`/`rel2`
model `path.relative_to(src1)`/`(src2)`. -/
def diffPlan {P RP : Type} (hash : P → String) (rel1 rel2 : P → RP)
    (src1 src2 : List P) : DiffPlan P RP :=
  let hashes1 := src1.map hash
  let hashes2 := src2.map hash
  let H1 := pySet hashes1
  let H2 := pySet hashes2
  { both := (H1.filter (fun h => decide (h ∈ H2))).filterMap
      (fun h => (hashToPath hash src1 h).map (fun p => (p, rel1 p)))
    src1_only := (H1.filter (fun h => decide (h ∉ H2))).filterMap
      (fun h => (hashToPath hash src1 h).map (fun p => (p, rel1 p)))
    src2_only := (H2.filter (fun h => decide (h ∉ H1))).filterMap
      (fun h => (hashToPath hash src2 h).map (fun p => (p, rel2 p))) }

theorem getLast_some_mem {γ : Type} (l : List γ) (x : γ) (h : l.getLast? = some x) :
    x ∈ l := by
  obtain ⟨hne, hx⟩ := List.mem_getLast?_eq_getLast h
  rw [hx]
  exact List.getLast_mem hne

theorem zip_map_self {P : Type} (hash : P → String) (src : List P) :
    src.zip (src.map hash) = src.map (fun p => (p, hash p)) := by
  induction src with
  | nil => rfl
  | cons a t ih => simp [ih]

theorem hashToPath_eq_some {P : Type} (hash : P → String) (src : List P)
    (h : String) (p : P) (hk : hashToPath hash src h = some p) :
    p ∈ src ∧ hash p = h := by
  unfold hashToPath pyDictLookup at hk
  have hmem := getLast_some_mem _ _ hk
  obtain ⟨q, hq, hq2⟩ := List.mem_map.mp hmem
  obtain ⟨hq1, hqk⟩ := List.mem_filter.mp hq
  obtain ⟨q0, hq0, hq02⟩ := List.mem_map.mp hq1
  rw [zip_map_self] at hq0
  obtain ⟨p0, hp0, hp02⟩ := List.mem_map.mp hq0
  subst hp02
  subst hq02
  simp only at hq2 hqk
  subst hq2
  refine ⟨hp0, ?_⟩
  simpa using hqk

theorem hashToPath_isSome_of_mem {P : Type} (hash : P → String) (src : List P)
    (h : String) (hmem : h ∈ src.map hash) : ∃ p, hashToPath hash src h = some p := by
  obtain ⟨p0, hp0, hp02⟩ := List.mem_map.mp hmem
  unfold hashToPath pyDictLookup
  rw [zip_map_self, List.map_map]
  have hne : (List.filter (fun q => decide (q.1 = h))
      (src.map ((fun q : P × String => (q.2, q.1)) ∘ fun p => (p, hash p)))) ≠ [] := by
    rw [← List.length_pos_iff_ne_nil, List.length_pos_iff_exists_mem]
    refine ⟨(hash p0, p0), List.mem_filter.mpr ⟨?_, by simp [hp02]⟩⟩
    exact List.mem_map.mpr ⟨p0, hp0, rfl⟩
  cases hlast : ((List.filter (fun q => decide (q.1 = h))
      (src.map ((fun q : P × String => (q.2, q.1)) ∘ fun p => (p, hash p)))).map
        Prod.snd).getLast? with
  | none =>
    rw [List.getLast?_eq_none_iff] at hlast
    exact absurd (List.map_eq_nil.mp hlast) hne
  | some p => exact ⟨p, rfl⟩

theorem mem_diffPlan_both {P RP : Type} (hash : P → String) (rel1 rel2 : P → RP)
    (src1 src2 : List P) (p : P) (rp : RP) :
    (p, rp) ∈ (diffPlan hash rel1 rel2 src1 src2).both ↔
      ∃ h, h ∈ src1.map hash ∧ h ∈ src2.map hash ∧
        hashToPath hash src1 h = some p ∧ rp = rel1 p := by
  unfold diffPlan
  simp only [List.mem_filterMap, List.mem_filter, mem_pySet, decide_eq_true_eq,
    Option.map_eq_some', Prod.mk.injEq]
  constructor
  · rintro ⟨h, ⟨hm1, hm2⟩, x, hx, rfl, rfl⟩
    exact ⟨h, hm1, hm2, hx, rfl⟩
  · rintro ⟨h, hm1, hm2, hx, rfl⟩
    exact ⟨h, ⟨hm1, hm2⟩, p, hx, rfl, rfl⟩

theorem mem_diffPlan_src1_only {P RP : Type} (hash : P → String) (rel1 rel2 : P → RP)
    (src1 src2 : List P) (p : P) (rp : RP) :
    (p, rp) ∈ (diffPlan hash rel1 rel2 src1 src2).src1_only ↔
      ∃ h, h ∈ src1.map hash ∧ h ∉ src2.map hash ∧
        hashToPath hash src1 h = some p ∧ rp = rel1 p := by
  unfold diffPlan
  simp only [List.mem_filterMap, List.mem_filter, mem_pySet, decide_eq_true_eq,
    Option.map_eq_some', Prod.mk.injEq]
  constructor
  · rintro ⟨h, ⟨hm1, hm2⟩, x, hx, rfl, rfl⟩
    exact ⟨h, hm1, hm2, hx, rfl⟩
  · rintro ⟨h, hm1, hm2, hx, rfl⟩
    exact ⟨h, ⟨hm1, hm2⟩, p, hx, rfl, rfl⟩

theorem mem_diffPlan_src2_only {P RP : Type} (hash : P → String) (rel1 rel2 : P → RP)
    (src1 src2 : List P) (p : P) (rp : RP) :
    (p, rp) ∈ (diffPlan hash rel1 rel2 src1 src2).src2_only ↔
      ∃ h, h ∈ src2.map hash ∧ h ∉ src1.map hash ∧
        hashToPath hash src2 h = some p ∧ rp = rel2 p := by
  unfold diffPlan
  simp only [List.mem_filterMap, List.mem_filter, mem_pySet, decide_eq_true_eq,
    Option.map_eq_some', Prod.mk.injEq]
  constructor
  · rintro ⟨h, ⟨hm1, hm2⟩, x, hx, rfl, rfl⟩
    exact ⟨h, hm1, hm2, hx, rfl⟩
  · rintro ⟨h, hm1, hm2, hx, rfl⟩
    exact ⟨h, ⟨hm1, hm2⟩, p, hx, rfl, rfl⟩

/-- C6: with `H1`, `H2` the digest sets computed from src1 and src2,
exactly the digests in `H1 ∩ H2` are materialized under `dst/both` and
exactly those in `H1 − H2` under `dst/src1_only`, each at its src1
representative's path relative to src1, and exactly those in `H2 − H1`
under `dst/src2_only` at the src2 representative's path relative to
src2. -/
theorem diff_partition_exact {P RP : Type} (hash : P → String) (rel1 rel2 : P → RP)
    (src1 src2 : List P) :
    (∀ (p : P) (rp : RP), (p, rp) ∈ (diffPlan hash rel1 rel2 src1 src2).both ↔
      ∃ h, h ∈ src1.map hash ∧ h ∈ src2.map hash ∧
        hashToPath hash src1 h = some p ∧ rp = rel1 p) ∧
    (∀ (p : P) (rp : RP), (p, rp) ∈ (diffPlan hash rel1 rel2 src1 src2).src1_only ↔
      ∃ h, h ∈ src1.map hash ∧ h ∉ src2.map hash ∧
        hashToPath hash src1 h = some p ∧ rp = rel1 p) ∧
    (∀ (p : P) (rp : RP), (p, rp) ∈ (diffPlan hash rel1 rel2 src1 src2).src2_only ↔
      ∃ h, h ∈ src2.map hash ∧ h ∉ src1.map hash ∧
        hashToPath hash src2 h = some p ∧ rp = rel2 p) :=
  ⟨fun p rp => mem_diffPlan_both hash rel1 rel2 src1 src2 p rp,
    fun p rp => mem_diffPlan_src1_only hash rel1 rel2 src1 src2 p rp,
    fun p rp => mem_diffPlan_src2_only hash rel1 rel2 src1 src2 p rp⟩

/-- Witness for C6: sources `[1, 2]` and `[2]` under the digest function
sending 1 to "a" and everything else to "b": digest "b" is in both sets and
its src1 representative 2 is materialized under `both`; digest "a" is
src1-only. -/
theorem diff_partition_exact_witness :
    ((2 : Nat), (2 : Nat)) ∈ (diffPlan (fun n : Nat => if n = 1 then "a" else "b")
      (fun n => n) (fun n => n) [1, 2] [2]).both ∧
    ((1 : Nat), (1 : Nat)) ∈ (diffPlan (fun n : Nat => if n = 1 then "a" else "b")
      (fun n => n) (fun n => n) [1, 2] [2]).src1_only :=
  ⟨((diff_partition_exact (fun n : Nat => if n = 1 then "a" else "b")
        (fun n => n) (fun n => n) [1, 2] [2]).1 2 2).mpr
      ⟨"b", by decide, by decide, by decide, rfl⟩,
    ((diff_partition_exact (fun n : Nat => if n = 1 then "a" else "b")
        (fun n => n) (fun n => n) [1, 2] [2]).2.1 1 1).mpr
      ⟨"a", by decide, by decide, by decide, rfl⟩⟩

/-- C10: in the set-diff workflow every image path whose contents cannot be
read receives the same digest value (the empty string) and still
participates in the membership partitioning as an ordinary digest:
unreadable images are never excluded, and when src1 and src2 each contain
an unreadable image the empty digest lies in H1 ∩ H2, so one unreadable
src1 representative is materialized under `dst/both` even though no content
comparison succeeded. -/
theorem diff_unreadable_in_both {RP : Type} (hashHex : HashAlgo → List Nat → String)
    (algo : HashAlgo) (rel1 rel2 : FsPath → RP) (src1 src2 : List FsPath)
    (hnz : ∀ bs, hashHex algo bs ≠ "")
    (p1 : FsPath) (h1 : p1 ∈ src1) (h1u : p1.content = none)
    (p2 : FsPath) (h2 : p2 ∈ src2) (h2u : p2.content = none) :
    (∀ p : FsPath, p.content = none → cksum hashHex FsPath.content algo p = "") ∧
    "" ∈ src1.map (cksum hashHex FsPath.content algo) ∧
    "" ∈ src2.map (cksum hashHex FsPath.content algo) ∧
    ∃ p : FsPath, p.content = none ∧
      (p, rel1 p) ∈
        (diffPlan (cksum hashHex FsPath.content algo) rel1 rel2 src1 src2).both := by
  have hcs : ∀ p : FsPath, p.content = none → cksum hashHex FsPath.content algo p = "" := by
    intro p hp
    unfold cksum
    rw [hp]
  have m1 : "" ∈ src1.map (cksum hashHex FsPath.content algo) :=
    List.mem_map.mpr ⟨p1, h1, hcs p1 h1u⟩
  have m2 : "" ∈ src2.map (cksum hashHex FsPath.content algo) :=
    List.mem_map.mpr ⟨p2, h2, hcs p2 h2u⟩
  obtain ⟨p0, hp0⟩ :=
    hashToPath_isSome_of_mem (cksum hashHex FsPath.content algo) src1 "" m1
  obtain ⟨hp0mem, hp0hash⟩ :=
    hashToPath_eq_some (cksum hashHex FsPath.content algo) src1 "" p0 hp0
  have hp0u : p0.content = none := by
    cases hc : p0.content with
    | none => rfl
    | some bs =>
      unfold cksum at hp0hash
      rw [hc] at hp0hash
      exact absurd hp0hash (hnz bs)
  refine ⟨hcs, m1, m2, p0, hp0u, ?_⟩
  exact (mem_diffPlan_both (cksum hashHex FsPath.content algo) rel1 rel2
    src1 src2 p0 (rel1 p0)).mpr ⟨"", m1, m2, hp0, rfl⟩

/-- Witness for C10: one unreadable image on each side; the src1 one is
materialized under `both` with the empty digest. -/
theorem diff_unreadable_in_both_witness :
    (∀ bs : List Nat, (fun (_ : HashAlgo) (_ : List Nat) => "h") HashAlgo.sha256 bs ≠ "") ∧
    (∀ p : FsPath, p.content = none →
      cksum (fun _ _ => "h") FsPath.content HashAlgo.sha256 p = "") ∧
    "" ∈ [FsPath.mk "a" none].map (cksum (fun _ _ => "h") FsPath.content HashAlgo.sha256) ∧
    "" ∈ [FsPath.mk "b" none].map (cksum (fun _ _ => "h") FsPath.content HashAlgo.sha256) ∧
    ∃ p : FsPath, p.content = none ∧
      (p, p.name) ∈ (diffPlan (cksum (fun _ _ => "h") FsPath.content HashAlgo.sha256)
        FsPath.name FsPath.name [FsPath.mk "a" none] [FsPath.mk "b" none]).both :=
  ⟨fun _ h => absurd (show ("h" : String) = "" from h) (by decide),
    (diff_unreadable_in_both (fun _ _ => "h") HashAlgo.sha256 FsPath.name FsPath.name
      [FsPath.mk "a" none] [FsPath.mk "b" none] (fun _ h => absurd (show ("h" : String) = "" from h) (by decide))
      (FsPath.mk "a" none) (List.mem_singleton.mpr rfl) rfl
      (FsPath.mk "b" none) (List.mem_singleton.mpr rfl) rfl).1,
    (diff_unreadable_in_both (fun _ _ => "h") HashAlgo.sha256 FsPath.name FsPath.name
      [FsPath.mk "a" none] [FsPath.mk "b" none] (fun _ h => absurd (show ("h" : String) = "" from h) (by decide))
      (FsPath.mk "a" none) (List.mem_singleton.mpr rfl) rfl
      (FsPath.mk "b" none) (List.mem_singleton.mpr rfl) rfl).2.1,
    (diff_unreadable_in_both (fun _ _ => "h") HashAlgo.sha256 FsPath.name FsPath.name
      [FsPath.mk "a" none] [FsPath.mk "b" none] (fun _ h => absurd (show ("h" : String) = "" from h) (by decide))
      (FsPath.mk "a" none) (List.mem_singleton.mpr rfl) rfl
      (FsPath.mk "b" none) (List.mem_singleton.mpr rfl) rfl).2.2.1,
    (diff_unreadable_in_both (fun _ _ => "h") HashAlgo.sha256 FsPath.name FsPath.name
      [FsPath.mk "a" none] [FsPath.mk "b" none] (fun _ h => absurd (show ("h" : String) = "" from h) (by decide))
      (FsPath.mk "a" none) (List.mem_singleton.mpr rfl) rfl
      (FsPath.mk "b" none) (List.mem_singleton.mpr rfl) rfl).2.2.2⟩

/-- The `--group` granularity of `groupby`. -/
inductive Group where
  | year
  | month
  | day
  deriving DecidableEq

/-- Calendar fields of the `datetime` returned by the metadata reader. -/
structure Timestamp where
  year : Nat
  month : Nat
  day : Nat
  deriving DecidableEq

/-- Zero-padded decimal formatting: CPython `strftime` documents `%Y`,
`%m`, `%d` as zero-padded decimal numbers (widths 4, 2, 2). -/
def padNum (width n : Nat) : String :=
  String.mk (List.replicate (width - (toString n).length) '0') ++ toString n

/-- `_get_dst_dir_name(timestamp, groupby=...)` of `cli/groupby.py`:
`%Y`, `%Y%m` or `%Y%m%d` according to the granularity. -/
def get_dst_dir_name (ts : Timestamp) (g : Group) : String :=
  match g with
  | .year => padNum 4 ts.year
  | .month => padNum 4 ts.year ++ padNum 2 ts.month
  | .day => padNum 4 ts.year ++ padNum 2 ts.month ++ padNum 2 ts.day

/-- A source image path: its directory components relative to the source
root and its base file name (`Path.name`). -/
structure SrcPath where
  dir : List String
  base : String
  deriving DecidableEq

/-- `Path.name`: the base file name only. -/
def SrcPath.name (p : SrcPath) : String := p.base

/-- The label a path is bucketed under: the formatted capture timestamp, or
the sentinel `UNKNOWN` when the metadata reader returns no timestamp. -/
def labelFor (readTs : SrcPath → Option Timestamp) (g : Group) (p : SrcPath) : String :=
  match readTs p with
  | none => "UNKNOWN"
  | some ts => get_dst_dir_name ts g

/-- `defaultdict(list)` insertion: append to the existing bucket for the
key, or create a new bucket at the end. -/
def addBucket (bs : List (String × List SrcPath)) (k : String) (p : SrcPath) :
    List (String × List SrcPath) :=
  match bs with
  | [] => [(k, [p])]
  | (k1, ps) :: rest =>
    if k1 = k then (k1, ps ++ [p]) :: rest else (k1, ps) :: addBucket rest k p

/-- The `dst_dir_name_to_src_img_paths` grouping loop of `groupby`. -/
def buckets (readTs : SrcPath → Option Timestamp) (g : Group) (paths : List SrcPath) :
    List (String × List SrcPath) :=
  paths.foldl (fun bs p => addBucket bs (labelFor readTs g p) p) []

/-- Flatten a bucket list into the `src_img_path_to_dst_img_path` entries:
each source path mapped to `(label directory, original file name)` -- the
destination path is `dst/<label>/<file name>`. -/
def planOf (bs : List (String × List SrcPath)) : List (SrcPath × String × String) :=
  bs.flatMap (fun b => b.2.map (fun p => (p, b.1, p.name)))

/-- The complete source-to-destination assignment of a `groupby` run. -/
def groupbyPlan (readTs : SrcPath → Option Timestamp) (g : Group)
    (paths : List SrcPath) : List (SrcPath × String × String) :=
  planOf (buckets readTs g paths)

theorem planOf_cons (b : String × List SrcPath) (rest : List (String × List SrcPath)) :
    planOf (b :: rest) = b.2.map (fun p => (p, b.1, p.name)) ++ planOf rest := by
  simp [planOf]

theorem mem_planOf_addBucket (bs : List (String × List SrcPath)) (k : String)
    (p : SrcPath) (x : SrcPath × String × String) :
    x ∈ planOf (addBucket bs k p) ↔ x ∈ planOf bs ∨ x = (p, k, p.name) := by
  induction bs with
  | nil => simp [planOf, addBucket]
  | cons b rest ih =>
    obtain ⟨k1, ps⟩ := b
    by_cases hk : k1 = k
    · simp only [addBucket]
      rw [if_pos hk]
      subst hk
      rw [planOf_cons, planOf_cons]
      simp only [List.map_append, List.mem_append, List.map_cons, List.map_nil,
        List.mem_singleton]
      tauto
    · simp only [addBucket, if_neg hk]
      rw [planOf_cons, planOf_cons]
      simp only [List.mem_append, ih]
      tauto

theorem mem_planOf_foldl (readTs : SrcPath → Option Timestamp) (g : Group) :
    ∀ (paths : List SrcPath) (bs : List (String × List SrcPath))
      (x : SrcPath × String × String),
      x ∈ planOf (paths.foldl (fun bs p => addBucket bs (labelFor readTs g p) p) bs) ↔
        x ∈ planOf bs ∨ ∃ p ∈ paths, x = (p, labelFor readTs g p, p.name) := by
  intro paths
  induction paths with
  | nil => simp
  | cons p rest ih =>
    intro bs x
    rw [List.foldl_cons, ih, mem_planOf_addBucket]
    constructor
    · rintro ((h | h) | h)
      · exact Or.inl h
      · exact Or.inr ⟨p, List.mem_cons_self p rest, h⟩
      · obtain ⟨q, hq, hx⟩ := h
        exact Or.inr ⟨q, List.mem_cons_of_mem p hq, hx⟩
    · rintro (h | h)
      · exact Or.inl (Or.inl h)
      · obtain ⟨q, hq, hx⟩ := h
        rcases List.mem_cons.mp hq with rfl | hq2
        · exact Or.inl (Or.inr hx)
        · exact Or.inr ⟨q, hq2, hx⟩

theorem padNum_length (w n : Nat) (hle : (toString n).length ≤ w) :
    (padNum w n).length = w := by
  simp only [padNum, String.length_append, String.length_mk, List.length_replicate]
  omega

/-- C7: every enumerated image is assigned the destination
`dst/<label>/<original file name>` (base name only, independent of the
directory the image came from), where the label is the capture timestamp
formatted zero-padded as `YYYY` / `YYYYMM` / `YYYYMMDD` by granularity, and
is the sentinel `UNKNOWN` whenever no usable capture timestamp is available
(the item still appears in the plan rather than failing). -/
theorem groupby_dst_label_basename (readTs : SrcPath → Option Timestamp) (g : Group)
    (paths : List SrcPath) :
    (∀ (p : SrcPath) (lbl nm : String),
      (p, lbl, nm) ∈ groupbyPlan readTs g paths ↔
        p ∈ paths ∧ lbl = labelFor readTs g p ∧ nm = p.base) ∧
    (∀ p : SrcPath, readTs p = none → labelFor readTs g p = "UNKNOWN") ∧
    (∀ (p : SrcPath) (ts : Timestamp), readTs p = some ts →
      labelFor readTs g p = get_dst_dir_name ts g) ∧
    (∀ ts : Timestamp,
      get_dst_dir_name ts Group.year = padNum 4 ts.year ∧
      get_dst_dir_name ts Group.month = padNum 4 ts.year ++ padNum 2 ts.month ∧
      get_dst_dir_name ts Group.day =
        padNum 4 ts.year ++ padNum 2 ts.month ++ padNum 2 ts.day) ∧
    (∀ ts : Timestamp, (toString ts.year).length ≤ 4 →
      (toString ts.month).length ≤ 2 → (toString ts.day).length ≤ 2 →
      (get_dst_dir_name ts Group.year).length = 4 ∧
      (get_dst_dir_name ts Group.month).length = 6 ∧
      (get_dst_dir_name ts Group.day).length = 8) := by
  refine ⟨?_, ?_, ?_, ?_, ?_⟩
  · intro p lbl nm
    unfold groupbyPlan buckets
    rw [mem_planOf_foldl]
    simp only [planOf, List.flatMap_nil, List.not_mem_nil, false_or, Prod.mk.injEq]
    constructor
    · rintro ⟨q, hq, rfl, h2, h3⟩
      exact ⟨hq, h2.symm ▸ rfl, h3.symm ▸ rfl⟩
    · rintro ⟨hp, rfl, rfl⟩
      exact ⟨p, hp, rfl, rfl, rfl⟩
  · intro p hp
    unfold labelFor
    rw [hp]
  · intro p ts hp
    unfold labelFor
    rw [hp]
  · intro ts
    exact ⟨rfl, rfl, rfl⟩
  · intro ts hy hm hd
    refine ⟨padNum_length 4 ts.year hy, ?_, ?_⟩
    · unfold get_dst_dir_name
      rw [String.length_append, padNum_length 4 ts.year hy, padNum_length 2 ts.month hm]
    · unfold get_dst_dir_name
      rw [String.length_append, String.length_append, padNum_length 4 ts.year hy,
        padNum_length 2 ts.month hm, padNum_length 2 ts.day hd]

/-- Witness for C7: one image captured 2020-01-15 under month granularity
lands at `dst/202001/<base name>`; one image without metadata lands at
`dst/UNKNOWN/<base name>`. -/
theorem groupby_dst_label_basename_witness :
    (SrcPath.mk ["d1"] "x.jpg", "202001", "x.jpg") ∈
      groupbyPlan (fun p => if p.base = "x.jpg" then some (Timestamp.mk 2020 1 15)
        else none) Group.month [SrcPath.mk ["d1"] "x.jpg", SrcPath.mk ["d2"] "y.jpg"] ∧
    (SrcPath.mk ["d2"] "y.jpg", "UNKNOWN", "y.jpg") ∈
      groupbyPlan (fun p => if p.base = "x.jpg" then some (Timestamp.mk 2020 1 15)
        else none) Group.month [SrcPath.mk ["d1"] "x.jpg", SrcPath.mk ["d2"] "y.jpg"] :=
  ⟨((groupby_dst_label_basename
      (fun p => if p.base = "x.jpg" then some (Timestamp.mk 2020 1 15) else none)
      Group.month [SrcPath.mk ["d1"] "x.jpg", SrcPath.mk ["d2"] "y.jpg"]).1
      (SrcPath.mk ["d1"] "x.jpg") "202001" "x.jpg").mpr
      ⟨by decide, by decide, rfl⟩,
    ((groupby_dst_label_basename
      (fun p => if p.base = "x.jpg" then some (Timestamp.mk 2020 1 15) else none)
      Group.month [SrcPath.mk ["d1"] "x.jpg", SrcPath.mk ["d2"] "y.jpg"]).1
      (SrcPath.mk ["d2"] "y.jpg") "UNKNOWN" "y.jpg").mpr
      ⟨by decide, by decide, rfl⟩⟩

end Pyimorg
